import Mathlib

/-
  Verification development for the uniqued content-deduplication service.

  The daemon model is a shallow embedding of src/uniqued.c: the two glib hash
  tables (blobs keyed by digest string, peers keyed by bus name, and the
  per-peer handle table) are modelled as lists with distinct keys, the two
  gsize counters as Nat, and every daemon function is translated line by line.
  File descriptors are modelled by the data they carry (a Memfd record with
  content bytes, a seal bitmask and a readability flag); the digest of a
  content is an injective fingerprint standing in for the external SHA-256
  implementation (glib GChecksum, not part of this repository).

  The client model is a shallow embedding of src/unique-bytes.c. The bus
  transport is an oracle (did the bus connect, did the fd append succeed,
  what reply arrived); mmap is an oracle returning the address the kernel
  chose, so that the fixed-address remap assertion of make_unique_cb is
  visible in the model.
-/

namespace Uniqued

/-! ## Daemon data model, from src/uniqued.c -/

/-- A byte of blob content. -/
abbrev Byte := Nat

/-- Digest used to key the blob table. Stands in for the lowercase hex SHA-256
computed by checksum_from_fd via glib GChecksum, which is external library
code: the model only needs that equal contents give equal keys, which any
function provides, and this one is additionally injective. -/
def sha256hex (content : List Byte) : String := toString content

/-- The Blob record of uniqued.c (sha256, len, ref_count); the owned fd is an
external kernel resource and is represented by the content digest itself. -/
structure Blob where
  sha256 : String
  len : Nat
  ref_count : Nat
deriving Repr, DecidableEq

/-- The Peer record of uniqued.c: bus name, next_blob_id counter (guint32,
hence the mod 2 to the 32 on increment), and the handle to blob table, as an
association list from handle to the key of the referenced blob. -/
structure Peer where
  name : String
  next_blob_id : Nat
  blobs : List (Nat × String)
deriving Repr, DecidableEq

/-- The global daemon state: the two gsize counters and the two hash tables
(static variables real_blob_size, apparent_blob_size, blobs, peers). -/
structure DaemonState where
  real_blob_size : Nat
  apparent_blob_size : Nat
  blobs : List Blob
  peers : List Peer
deriving Repr, DecidableEq

/-- Fresh daemon state as set up in main. -/
def initState : DaemonState := ⟨0, 0, [], []⟩

/-- A sealed in-memory file as received over the bus: its content, its seal
bitmask (F_GET_SEALS) and whether pread from it succeeds. -/
structure Memfd where
  content : List Byte
  seals : Nat
  readable : Bool
deriving Repr, DecidableEq

def F_SEAL_SEAL : Nat := 1
def F_SEAL_SHRINK : Nat := 2
def F_SEAL_GROW : Nat := 4
def F_SEAL_WRITE : Nat := 8

/-- ALL_SEALS from uniqued.c. -/
def ALL_SEALS : Nat := F_SEAL_SEAL ||| F_SEAL_SHRINK ||| F_SEAL_GROW ||| F_SEAL_WRITE

/-- Dereference of blob len for a table key (blob is found through its key
because the model represents Blob pointers by their table key). -/
def blob_len (st : DaemonState) (sha : String) : Nat :=
  match st.blobs.find? (fun b => b.sha256 == sha) with
  | some b => b.len
  | none => 0

/-- blob_ref: increment the reference count of the blob with the given key. -/
def blob_ref (st : DaemonState) (sha : String) : DaemonState :=
  { st with blobs := st.blobs.map (fun b =>
      if b.sha256 == sha then { b with ref_count := b.ref_count + 1 } else b) }

/-- blob_unref: decrement the count; at zero, subtract the len from
real_blob_size, remove the blob from the table and free it (fd close and
frees are external resource effects). The none branch corresponds to a
dangling Blob pointer and is unreachable from reachable states. -/
def blob_unref (st : DaemonState) (sha : String) : DaemonState :=
  match st.blobs.find? (fun b => b.sha256 == sha) with
  | none => st
  | some b =>
    if b.ref_count - 1 = 0 then
      { st with real_blob_size := st.real_blob_size - b.len,
                blobs := st.blobs.filter (fun x => x.sha256 != sha) }
    else
      { st with blobs := st.blobs.map (fun x =>
          if x.sha256 == sha then { x with ref_count := x.ref_count - 1 } else x) }

/-- blob_new: take ownership of the fd, record its fstat size (the content
length), start at ref_count 1, add the len to real_blob_size and insert into
the blob table. -/
def blob_new (st : DaemonState) (len : Nat) (sha : String) : DaemonState :=
  { st with real_blob_size := st.real_blob_size + len,
            blobs := ⟨sha, len, 1⟩ :: st.blobs }

/-- lookup_blob: on a hit the count is bumped (blob_ref) and true is
returned; on a miss the state is unchanged. -/
def lookup_blob (st : DaemonState) (sha : String) : DaemonState × Bool :=
  match st.blobs.find? (fun b => b.sha256 == sha) with
  | some _ => (blob_ref st sha, true)
  | none => (st, false)

/-- removed_blob_from_peer_cb: the GDestroyNotify of the per-peer handle
table; subtracts the blob len from apparent_blob_size, then drops the
reference the entry held. -/
def removed_blob_from_peer_cb (st : DaemonState) (sha : String) : DaemonState :=
  blob_unref
    { st with apparent_blob_size := st.apparent_blob_size - blob_len st sha } sha

/-- lookup_peer: find the peer record for a bus name, creating it (with
next_blob_id 1 and an empty handle table) on first contact. -/
def lookup_peer (st : DaemonState) (name : String) : DaemonState :=
  if st.peers.any (fun p => p.name == name) then st
  else { st with peers := ⟨name, 1, []⟩ :: st.peers }

/-- add_blob_to_peer: allocate the next handle, add the blob len to
apparent_blob_size, and insert a counted reference under that handle
(g_hash_table_insert; if the key is already present, which can only happen
once the 32 bit counter has wrapped, the old value is replaced and destroyed
through removed_blob_from_peer_cb). Returns the allocated handle. The none
branch is unreachable because lookup_peer just ensured the peer exists. -/
def add_blob_to_peer (st : DaemonState) (peer_name : String) (sha : String) :
    DaemonState × Nat :=
  let st1 := lookup_peer st peer_name
  match st1.peers.find? (fun p => p.name == peer_name) with
  | none => (st1, 0)
  | some peer =>
    let blob_id := peer.next_blob_id
    let old_entry := peer.blobs.find? (fun e => e.1 == blob_id)
    let st2 := { st1 with
      apparent_blob_size := st1.apparent_blob_size + blob_len st1 sha }
    let st3 := blob_ref st2 sha
    let st4 := { st3 with peers := st3.peers.map (fun p =>
        if p.name == peer_name then
          { p with next_blob_id := (p.next_blob_id + 1) % 2 ^ 32,
                   blobs := (blob_id, sha) :: p.blobs.filter (fun e => e.1 != blob_id) }
        else p) }
    let st5 := match old_entry with
               | some e => removed_blob_from_peer_cb st4 e.2
               | none => st4
    (st5, blob_id)

/-- remove_blob_from_peer: look up the peer (note that lookup_peer creates an
empty record for an unknown sender), then remove the handle entry;
g_hash_table_remove of an absent key is a no-op, otherwise the destroy
notify removed_blob_from_peer_cb runs on the stored reference. -/
def remove_blob_from_peer (st : DaemonState) (peer_name : String) (blob_id : Nat) :
    DaemonState :=
  let st1 := lookup_peer st peer_name
  match st1.peers.find? (fun p => p.name == peer_name) with
  | none => st1
  | some peer =>
    match peer.blobs.find? (fun e => e.1 == blob_id) with
    | none => st1
    | some e =>
      let st2 := { st1 with peers := st1.peers.map (fun p =>
          if p.name == peer_name then
            { p with blobs := p.blobs.filter (fun x => x.1 != blob_id) }
          else p) }
      removed_blob_from_peer_cb st2 e.2

/-! ## Method dispatch, from src/uniqued.c -/

/-- Shape of a method call payload: a handle tuple matching signature (h), a
uint32 tuple matching signature (u), or anything else. -/
inductive Params where
  | h (idx : Nat)
  | u (val : Nat)
  | other
deriving Repr, DecidableEq

/-- Error kinds returned through g_dbus_method_invocation_return_error. -/
inductive ErrKind where
  | invalidArgs
  | failed
  | unknownMethod
deriving Repr, DecidableEq

/-- A method reply: an error, a MakeUnique success carrying the attached fd
list (each attached canonical fd represented by the key of its blob) and the
allocated handle, or the empty Forget reply. -/
inductive Reply where
  | err (kind : ErrKind) (msg : String)
  | okMakeUnique (ret_fds : List String) (handle : Nat)
  | okForget
deriving Repr, DecidableEq

/-- steal_one_fd_from_list: take the fd at the given index of the attached
descriptor list if there is one (a missing or NULL list is the empty list;
the other descriptors are closed, an external resource effect). -/
def steal_one_fd_from_list (fd_list : List Memfd) (handle : Nat) : Option Memfd :=
  fd_list[handle]?

/-- make_unique: the MakeUnique method handler, translated step by step from
uniqued.c. The fd append onto the reply list (the sole source of the
internal Failed error in C) has no failure mode in the model, so the reply
fd duplication always succeeds. -/
def make_unique (st : DaemonState) (sender : String) (parameters : Params)
    (fd_list : List Memfd) : DaemonState × Reply :=
  match parameters with
  | .h handle =>
    match steal_one_fd_from_list fd_list handle with
    | none => (st, .err .invalidArgs "No fd passed")
    | some fd =>
      if (fd.seals &&& ALL_SEALS) != ALL_SEALS then
        (st, .err .invalidArgs "Fd not sealed")
      else if !fd.readable then
        (st, .err .invalidArgs "Cant read data")
      else
        let sha := sha256hex fd.content
        let looked := lookup_blob st sha
        if looked.2 then
          let st2 := (add_blob_to_peer looked.1 sender sha).1
          let blob_id := (add_blob_to_peer looked.1 sender sha).2
          (blob_unref st2 sha, .okMakeUnique [sha] blob_id)
        else
          let st1 := blob_new looked.1 fd.content.length sha
          let st2 := (add_blob_to_peer st1 sender sha).1
          let blob_id := (add_blob_to_peer st1 sender sha).2
          (blob_unref st2 sha, .okMakeUnique [] blob_id)
  | _ => (st, .err .invalidArgs "Wrong argument types")

/-- forget: the Forget method handler; type check, then
remove_blob_from_peer, then always the empty tuple reply. -/
def forget (st : DaemonState) (sender : String) (parameters : Params) :
    DaemonState × Reply :=
  match parameters with
  | .u blob_id => (remove_blob_from_peer st sender blob_id, .okForget)
  | _ => (st, .err .invalidArgs "Wrong argument types")

/-- method_call: the GDBusInterfaceVTable dispatcher. -/
def method_call (st : DaemonState) (sender : String) (interface_name : String)
    (method_name : String) (parameters : Params) (fd_list : List Memfd) :
    DaemonState × Reply :=
  if method_name == "MakeUnique" then make_unique st sender parameters fd_list
  else if method_name == "Forget" then forget st sender parameters
  else (st, .err .unknownMethod
    ("Method " ++ method_name ++ " is not implemented on interface " ++ interface_name))

/-- peer_free: destroying a peer destroys its handle table, running
removed_blob_from_peer_cb on every stored reference. -/
def peer_free (st : DaemonState) (peer : Peer) : DaemonState :=
  peer.blobs.foldl (fun s e => removed_blob_from_peer_cb s e.2) st

/-- name_owner_changed: on a NameOwnerChanged signal whose name starts with a
colon, whose old owner equals the name and whose new owner is empty, remove
the peer record (g_hash_table_remove invokes peer_free as destroy notify). -/
def name_owner_changed (st : DaemonState) (name from_ to_ : String) : DaemonState :=
  if name.data.head? == some ':' && name == from_ && to_ == "" then
    match st.peers.find? (fun p => p.name == name) with
    | some peer =>
      peer_free { st with peers := st.peers.filter (fun p => p.name != name) } peer
    | none => st
  else st

/-- One externally visible daemon event: a method invocation or a
NameOwnerChanged signal. -/
inductive Op where
  | call (sender interface_name method_name : String) (parameters : Params)
      (fd_list : List Memfd)
  | ownerChanged (name from_ to_ : String)
deriving Repr, DecidableEq

/-- State transition of one event. -/
def stepOp (st : DaemonState) : Op → DaemonState
  | .call s i m p fds => (method_call st s i m p fds).1
  | .ownerChanged n f t => name_owner_changed st n f t

/-- Run a sequence of daemon events. -/
def run (st : DaemonState) (ops : List Op) : DaemonState := ops.foldl stepOp st

/-! ## Client model, from src/unique-bytes.c -/

/-- A MakeUnique reply as the client parses it: the ah array of descriptor
indexes, the attached descriptor list (abstract fd tokens) and the handle. -/
structure MUResponse where
  ah : List Nat
  fdList : List Nat
  id : Nat
deriving Repr, DecidableEq

/-- Oracle for the environment of one synchronous client call: whether
get_bus returned a connection, whether g_unix_fd_list_append succeeded, and
the reply (none on any transport error or timeout). -/
structure ClientCallEnv where
  busOk : Bool
  appendOk : Bool
  response : Option MUResponse
deriving Repr, DecidableEq

/-- Result of call_make_unique: the returned gboolean, the final value of
the in-out memfd, and the value written through id_out if any. -/
structure CallMakeUniqueResult where
  ret : Bool
  memfd : Nat
  id_out : Option Nat
deriving Repr, DecidableEq

/-- Client copy of steal_one_fd_from_list over abstract fd tokens. -/
def client_steal_one_fd_from_list (fds : List Nat) (handle : Nat) : Option Nat :=
  fds[handle]?

/-- call_make_unique from unique-bytes.c, translated faithfully including
its control flow defect: after the success branch assigns result = TRUE,
the statement return FALSE (line 194) executes on every path that reaches
it, so the function returns false even when the call succeeded, and the
final return result is dead code. -/
def call_make_unique (env : ClientCallEnv) (memfd : Nat) : CallMakeUniqueResult :=
  if !env.busOk then ⟨false, memfd, none⟩
  else if env.appendOk then
    match env.response with
    | some resp =>
      let memfd1 :=
        match resp.ah.head? with
        | some h =>
          match client_steal_one_fd_from_list resp.fdList h with
          | some newfd => newfd
          | none => memfd
        | none => memfd
      ⟨false, memfd1, some resp.id⟩
    | none => ⟨false, memfd, none⟩
  else ⟨false, memfd, none⟩

/-- What g_bytes_new_unique_sync hands back: a GBytes over the deduplicated
mapping, or a plain heap copy fallback. -/
inductive SyncBytes where
  | mappedUnique (memfd : Nat) (id : Nat)
  | heapCopy
deriving Repr, DecidableEq

/-- Environment oracle for g_bytes_new_unique_sync: the call environment,
whether create_sealed_memfd_for_data succeeded, and whether mmap succeeded. -/
structure SyncEnv where
  callEnv : ClientCallEnv
  memfdOk : Bool
  mmapOk : Bool
deriving Repr, DecidableEq

/-- g_bytes_new_unique_sync: build the sealed memfd, call call_make_unique
and only on a true return mmap the (possibly swapped) fd; on any failure
fall back to a plain heap copy. -/
def g_bytes_new_unique_sync (env : SyncEnv) (memfd : Nat) : SyncBytes :=
  if env.memfdOk then
    let r := call_make_unique env.callEnv memfd
    if r.ret && env.mmapOk then .mappedUnique r.memfd (r.id_out.getD 0)
    else .heapCopy
  else .heapCopy

/-- The MappedData record of unique-bytes.c: refcount, mapping base address,
mapping length, daemon handle (0 while unknown). -/
structure MappedData where
  ref_count : Nat
  data : Nat
  len : Nat
  id : Nat
deriving Repr, DecidableEq

/-- mapped_data_unref: drop one reference; at zero, munmap and, when a
handle was recorded, send Forget with it. Returns the surviving record (none
when freed) and the handle a Forget was sent for, if any. -/
def mapped_data_unref (d : MappedData) : Option MappedData × Option Nat :=
  if d.ref_count - 1 = 0 then
    (none, if d.id != 0 then some d.id else none)
  else (some { d with ref_count := d.ref_count - 1 }, none)

/-- Outcome of the asynchronous reply handler: the g_assert aborted the
process, or it completed with the resulting record state and possibly an
immediately sent Forget (when the handler held the last reference). -/
inductive CbOutcome where
  | aborted
  | done (d : Option MappedData) (forgetSent : Option Nat)
deriving Repr, DecidableEq

/-- make_unique_cb from unique-bytes.c. When the reply carries a canonical
fd, the C code calls mmap at hint mapped_data data with PROT_READ and
MAP_PRIVATE with MAP_FIXED; mmapRet is the address that call returned (a
failed mmap returns MAP_FAILED, an address different from the hint).
g_assert compares it with the original base address and aborts on mismatch.
In every completed case the reply handle is stored in the record, and the
reference taken for the call is dropped at the end. -/
def make_unique_cb (d : MappedData) (response : Option MUResponse) (mmapRet : Nat) :
    CbOutcome :=
  match response with
  | none =>
    let r := mapped_data_unref d
    .done r.1 r.2
  | some resp =>
    match resp.ah.head? with
    | some h =>
      match client_steal_one_fd_from_list resp.fdList h with
      | some _ =>
        if mmapRet != d.data then .aborted
        else
          let r := mapped_data_unref { d with id := resp.id }
          .done r.1 r.2
      | none =>
        let r := mapped_data_unref { d with id := resp.id }
        .done r.1 r.2
    | none =>
      let r := mapped_data_unref { d with id := resp.id }
      .done r.1 r.2

/-! ## Accounting quantities -/

/-- Total number of handle entries, across all peers, pointing at a blob key. -/
def refTotal (st : DaemonState) (sha : String) : Nat :=
  (st.peers.map (fun p => p.blobs.countP (fun e => e.2 == sha))).sum

/-- Sum of the referenced blob lens over the handle entries of one peer. -/
def peerEntriesLen (st : DaemonState) (p : Peer) : Nat :=
  (p.blobs.map (fun e => blob_len st e.2)).sum

/-- Sum of the referenced blob lens over every handle entry of every peer. -/
def apparentTotal (st : DaemonState) : Nat :=
  (st.peers.map (fun p => peerEntriesLen st p)).sum

/-- Sum of blob lens over the blob table. -/
def realTotal (st : DaemonState) : Nat :=
  (st.blobs.map (fun b => b.len)).sum

/-- Bool version of the invalid-args rejection condition of make_unique:
the payload does not match signature (h), or no fd sits at the given index
of the attached list, or a required seal is missing, or the fd is not
readable. -/
def makeUniqueBadArgs (parameters : Params) (fd_list : List Memfd) : Bool :=
  match parameters with
  | .h idx =>
    match fd_list[idx]? with
    | none => true
    | some fd => ((fd.seals &&& ALL_SEALS) != ALL_SEALS) || !fd.readable
  | _ => true

/-- The sender holds no handle entry for the given id. -/
def handleUnknown (st : DaemonState) (sender : String) (id : Nat) : Prop :=
  ∀ p ∈ st.peers, p.name = sender → ∀ e ∈ p.blobs, e.1 ≠ id

/-- The next handle the sender would be allocated does not collide with an
existing entry of that peer; always true before the 32 bit handle counter of
the peer wraps around. -/
def noPendingCollision (st : DaemonState) (sender : String) : Prop :=
  ∀ p ∈ st.peers, p.name = sender → ∀ e ∈ p.blobs, e.1 ≠ p.next_blob_id

instance (st : DaemonState) (sender : String) (id : Nat) :
    Decidable (handleUnknown st sender id) := by
  unfold handleUnknown
  infer_instance

instance (st : DaemonState) (sender : String) :
    Decidable (noPendingCollision st sender) := by
  unfold noPendingCollision
  infer_instance

/-- Key and len projection of a blob; reference count updates preserve it. -/
def projBlob (b : Blob) : String × Nat := (b.sha256, b.len)

/-- Generalized daemon invariant. pr is the multiset (as a list) of blob
keys with an outstanding temporary reference (taken but not yet dropped);
pa is the multiset of blob keys whose len is still counted in
apparent_blob_size although the carrying handle entry is already gone.
The conjuncts: distinct blob keys; distinct peer names; distinct handles
within each peer; positive refcounts; refcount accounting; entries point at
live blobs; pending references point at live blobs; pa is dominated by pr;
real size accounting; apparent size accounting. -/
def InvAux (st : DaemonState) (pr pa : List String) : Prop :=
  (st.blobs.map (fun b => b.sha256)).Nodup ∧
  (st.peers.map (fun p => p.name)).Nodup ∧
  (∀ p ∈ st.peers, (p.blobs.map (fun e => e.1)).Nodup) ∧
  (∀ b ∈ st.blobs, 0 < b.ref_count) ∧
  (∀ b ∈ st.blobs, b.ref_count = refTotal st b.sha256 + pr.count b.sha256) ∧
  (∀ p ∈ st.peers, ∀ e ∈ p.blobs, ∃ b ∈ st.blobs, b.sha256 = e.2) ∧
  (∀ s ∈ pr, ∃ b ∈ st.blobs, b.sha256 = s) ∧
  (∀ s ∈ pa, pa.count s ≤ pr.count s) ∧
  st.real_blob_size = realTotal st ∧
  st.apparent_blob_size = apparentTotal st + (pa.map (fun s => blob_len st s)).sum

/-- The daemon invariant between operations: no pending references and no
pending apparent size. -/
def Inv (st : DaemonState) : Prop := InvAux st [] []

instance (st : DaemonState) (pr pa : List String) : Decidable (InvAux st pr pa) := by
  unfold InvAux
  infer_instance

instance (st : DaemonState) : Decidable (Inv st) := by
  unfold Inv
  infer_instance

/-! ## Generic helper lemmas on keyed lists -/

section ListHelpers

variable {α : Type} {K : Type} [DecidableEq K]

theorem find?_split {p : α → Bool} {l : List α} {a : α} (h : l.find? p = some a) :
    ∃ l₁ l₂, l = l₁ ++ a :: l₂ ∧ (∀ x ∈ l₁, p x = false) ∧ p a = true := by
  induction l with
  | nil => simp at h
  | cons b t ih =>
    by_cases hpb : p b
    · rw [List.find?_cons_of_pos _ hpb] at h
      cases h
      exact ⟨[], t, rfl, by simp, hpb⟩
    · rw [List.find?_cons_of_neg _ hpb] at h
      obtain ⟨l₁, l₂, rfl, h1, h2⟩ := ih h
      refine ⟨b :: l₁, l₂, rfl, ?_, h2⟩
      intro x hx
      rcases List.mem_cons.mp hx with rfl | hx
      · exact Bool.of_not_eq_true hpb
      · exact h1 x hx

theorem find?_eq_of_mem_keys (key : α → K) {l : List α} {a : α} {k : K}
    (hn : (l.map key).Nodup) (ha : a ∈ l) (hk : key a = k) :
    l.find? (fun x => key x == k) = some a := by
  induction l with
  | nil => cases ha
  | cons b t ih =>
    simp only [List.map_cons, List.nodup_cons] at hn
    rcases List.mem_cons.mp ha with rfl | hat
    · rw [List.find?_cons_of_pos]
      simp [hk]
    · rw [List.find?_cons_of_neg]
      · exact ih hn.2 hat
      · simp only [beq_iff_eq]
        intro hbk
        exact hn.1 (by rw [hbk, ← hk]; exact List.mem_map_of_mem key hat)

theorem split_of_mem_keys (key : α → K) {l : List α} {a : α}
    (hn : (l.map key).Nodup) (ha : a ∈ l) :
    ∃ l₁ l₂, l = l₁ ++ a :: l₂ ∧ (∀ x ∈ l₁, key x ≠ key a) ∧
      (∀ x ∈ l₂, key x ≠ key a) := by
  obtain ⟨l₁, l₂, rfl, h1, _⟩ :=
    find?_split (find?_eq_of_mem_keys key hn ha rfl)
  refine ⟨l₁, l₂, rfl, ?_, ?_⟩
  · intro x hx hkx
    have := h1 x hx
    simp [hkx] at this
  · intro x hx hkx
    rw [List.map_append, List.map_cons] at hn
    have h2 := (List.Nodup.of_append_right hn)
    rw [List.nodup_cons] at h2
    exact h2.1 (by rw [← hkx]; exact List.mem_map_of_mem key hx)

theorem filter_keys_split (key : α → K) (k : K) (l₁ l₂ : List α) (a : α)
    (h₁ : ∀ x ∈ l₁, key x ≠ k) (h₂ : ∀ x ∈ l₂, key x ≠ k) (ha : key a = k) :
    (l₁ ++ a :: l₂).filter (fun x => key x != k) = l₁ ++ l₂ := by
  induction l₁ with
  | nil =>
    simp only [List.nil_append, List.filter_cons]
    rw [if_neg (by simp [ha])]
    exact List.filter_eq_self.mpr (fun x hx => by simp [h₂ x hx])
  | cons b t ih =>
    simp only [List.cons_append, List.filter_cons]
    rw [if_pos (by simp [h₁ b (List.mem_cons_self b t)])]
    rw [ih (fun x hx => h₁ x (List.mem_cons_of_mem b hx))]

theorem map_update_keys_split (key : α → K) (k : K) (u : α → α) (l₁ l₂ : List α) (a : α)
    (h₁ : ∀ x ∈ l₁, key x ≠ k) (h₂ : ∀ x ∈ l₂, key x ≠ k) (ha : key a = k) :
    (l₁ ++ a :: l₂).map (fun x => if key x == k then u x else x) =
      l₁ ++ u a :: l₂ := by
  induction l₁ with
  | nil =>
    simp only [List.nil_append, List.map_cons]
    rw [if_pos (by simp [ha])]
    congr 1
    have h2' : l₂.map (fun x => if key x == k then u x else x) = l₂.map id :=
      List.map_congr_left (fun x hx => by simp [h₂ x hx, id])
    rw [h2', List.map_id]
  | cons b t ih =>
    simp only [List.cons_append, List.map_cons]
    rw [if_neg (by simp [h₁ b (List.mem_cons_self b t)])]
    rw [ih (fun x hx => h₁ x (List.mem_cons_of_mem b hx))]

theorem find?_filter_keys (key : α → K) (l : List α) (s k : K) (hks : k ≠ s) :
    (l.filter (fun x => key x != s)).find? (fun x => key x == k) =
      l.find? (fun x => key x == k) := by
  induction l with
  | nil => simp
  | cons b t ih =>
    by_cases hbk : key b = k
    · rw [List.filter_cons, if_pos (by simp only [bne_iff_ne]; rw [hbk]; exact hks)]
      rw [List.find?_cons_of_pos _ (by simp only [beq_iff_eq]; exact hbk),
        List.find?_cons_of_pos _ (by simp only [beq_iff_eq]; exact hbk)]
    · by_cases hbs : key b = s
      · rw [List.filter_cons, if_neg (by simp only [bne_iff_ne]; exact fun h => h hbs)]
        rw [List.find?_cons_of_neg _ (by simp only [beq_iff_eq]; exact hbk), ih]
      · rw [List.filter_cons, if_pos (by simp only [bne_iff_ne]; exact hbs)]
        rw [List.find?_cons_of_neg _ (by simp only [beq_iff_eq]; exact hbk),
          List.find?_cons_of_neg _ (by simp only [beq_iff_eq]; exact hbk), ih]

theorem sum_map_add (l : List α) (f g : α → Nat) :
    (l.map (fun x => f x + g x)).sum = (l.map f).sum + (l.map g).sum := by
  induction l with
  | nil => simp
  | cons b t ih => simp [ih]; omega

theorem sum_map_swap (l : List α) {β : Type} (m : List β) (f : α → β → Nat) :
    (l.map (fun a => (m.map (f a)).sum)).sum =
      (m.map (fun b => (l.map (fun a => f a b)).sum)).sum := by
  induction l with
  | nil =>
    simp only [List.map_nil, List.sum_nil]
    symm
    apply List.sum_eq_zero
    intro x hx
    obtain ⟨y, hy, rfl⟩ := List.mem_map.mp hx
    simp
  | cons b t ih =>
    simp only [List.map_cons, List.sum_cons, ih, ← sum_map_add]

theorem sum_map_mul_const (l : List α) (f : α → Nat) (c : Nat) :
    (l.map (fun x => f x * c)).sum = (l.map f).sum * c := by
  induction l with
  | nil => simp
  | cons b t ih => simp [ih, Nat.add_mul]

theorem sum_map_single (l₁ l₂ : List α) (a : α) (f : α → Nat)
    (h₁ : ∀ x ∈ l₁, f x = 0) (h₂ : ∀ x ∈ l₂, f x = 0) :
    ((l₁ ++ a :: l₂).map f).sum = f a := by
  induction l₁ with
  | nil =>
    simp only [List.nil_append, List.map_cons, List.sum_cons]
    have : ∀ x ∈ l₂.map f, x = 0 := by
      intro x hx
      obtain ⟨y, hy, rfl⟩ := List.mem_map.mp hx
      exact h₂ y hy
    rw [List.sum_eq_zero this]
    omega
  | cons b t ih =>
    simp only [List.cons_append, List.map_cons, List.sum_cons]
    rw [h₁ b (List.mem_cons_self b t), ih (fun x hx => h₁ x (List.mem_cons_of_mem b hx))]
    omega

end ListHelpers

/-! ## Frame and characterization lemmas for the daemon primitives -/

theorem find?_append_cons {α : Type} {p : α → Bool} (l₁ l₂ : List α) (a : α)
    (h₁ : ∀ x ∈ l₁, p x = false) (ha : p a = true) :
    (l₁ ++ a :: l₂).find? p = some a := by
  induction l₁ with
  | nil => simp [List.find?_cons_of_pos _ ha]
  | cons b t ih =>
    rw [List.cons_append,
      List.find?_cons_of_neg _ (by simp [h₁ b (List.mem_cons_self b t)])]
    exact ih (fun x hx => h₁ x (List.mem_cons_of_mem b hx))

theorem findLen_congr (l l' : List Blob)
    (h : l'.map projBlob = l.map projBlob) (k : String) :
    (match l'.find? (fun b => b.sha256 == k) with | some b => b.len | none => 0) =
    (match l.find? (fun b => b.sha256 == k) with | some b => b.len | none => 0) := by
  induction l generalizing l' with
  | nil =>
    cases l' with
    | nil => rfl
    | cons b' t' => simp [projBlob] at h
  | cons b t ih =>
    cases l' with
    | nil => simp [projBlob] at h
    | cons b' t' =>
      simp only [List.map_cons, List.cons.injEq, projBlob, Prod.mk.injEq] at h
      obtain ⟨⟨hsha, hlen⟩, htt⟩ := h
      by_cases hk : b.sha256 = k
      · have e1 : (b' :: t').find? (fun x => x.sha256 == k) = some b' :=
          List.find?_cons_of_pos _ (by simp [hsha, hk])
        have e2 : (b :: t).find? (fun x => x.sha256 == k) = some b :=
          List.find?_cons_of_pos _ (by simp [hk])
        rw [e1, e2]
        simp [hlen]
      · have e1 : (b' :: t').find? (fun x => x.sha256 == k) =
            t'.find? (fun x => x.sha256 == k) :=
          List.find?_cons_of_neg _ (by simp [hsha, hk])
        have e2 : (b :: t).find? (fun x => x.sha256 == k) =
            t.find? (fun x => x.sha256 == k) :=
          List.find?_cons_of_neg _ (by simp [hk])
        rw [e1, e2]
        exact ih t' (by simpa [projBlob] using htt)

theorem blob_len_congr (st st' : DaemonState)
    (h : st'.blobs.map projBlob = st.blobs.map projBlob) (k : String) :
    blob_len st' k = blob_len st k := by
  unfold blob_len
  exact findLen_congr st.blobs st'.blobs h k

theorem keys_eq_of_proj (l l' : List Blob)
    (h : l'.map projBlob = l.map projBlob) :
    l'.map (fun b => b.sha256) = l.map (fun b => b.sha256) := by
  have h1 : l'.map (fun b => b.sha256) = (l'.map projBlob).map Prod.fst := by
    rw [List.map_map]; rfl
  have h2 : l.map (fun b => b.sha256) = (l.map projBlob).map Prod.fst := by
    rw [List.map_map]; rfl
  rw [h1, h2, h]

theorem lens_eq_of_proj (l l' : List Blob)
    (h : l'.map projBlob = l.map projBlob) :
    l'.map (fun b => b.len) = l.map (fun b => b.len) := by
  have h1 : l'.map (fun b => b.len) = (l'.map projBlob).map Prod.snd := by
    rw [List.map_map]; rfl
  have h2 : l.map (fun b => b.len) = (l.map projBlob).map Prod.snd := by
    rw [List.map_map]; rfl
  rw [h1, h2, h]

theorem exists_sha_iff (l : List Blob) (x : String) :
    (∃ b ∈ l, b.sha256 = x) ↔ x ∈ l.map (fun b => b.sha256) := by
  simp [List.mem_map]

theorem blob_ref_proj (st : DaemonState) (s : String) :
    (blob_ref st s).blobs.map projBlob = st.blobs.map projBlob := by
  rw [blob_ref]
  simp only [List.map_map]
  apply List.map_congr_left
  intro b _
  by_cases h : b.sha256 = s <;> simp [h, projBlob]

theorem blob_ref_peers (st : DaemonState) (s : String) :
    (blob_ref st s).peers = st.peers := rfl

theorem blob_ref_sizes (st : DaemonState) (s : String) :
    (blob_ref st s).real_blob_size = st.real_blob_size ∧
    (blob_ref st s).apparent_blob_size = st.apparent_blob_size := ⟨rfl, rfl⟩

theorem peerEntriesLen_congr (st st' : DaemonState) (p : Peer)
    (h : ∀ k, blob_len st' k = blob_len st k) :
    peerEntriesLen st' p = peerEntriesLen st p := by
  unfold peerEntriesLen
  exact congrArg List.sum (List.map_congr_left (fun e _ => h e.2))

theorem blob_ref_split (st : DaemonState) (B₁ B₂ : List Blob) (b0 : Blob)
    (hb : st.blobs = B₁ ++ b0 :: B₂)
    (h₁ : ∀ x ∈ B₁, x.sha256 ≠ b0.sha256) (h₂ : ∀ x ∈ B₂, x.sha256 ≠ b0.sha256) :
    (blob_ref st b0.sha256).blobs =
      B₁ ++ { b0 with ref_count := b0.ref_count + 1 } :: B₂ := by
  rw [blob_ref]
  simp only
  rw [hb]
  exact map_update_keys_split (fun b => b.sha256) b0.sha256
    (fun b => { b with ref_count := b.ref_count + 1 }) B₁ B₂ b0 h₁ h₂ rfl

theorem blob_unref_split_dec (st : DaemonState) (B₁ B₂ : List Blob) (b0 : Blob)
    (hb : st.blobs = B₁ ++ b0 :: B₂)
    (h₁ : ∀ x ∈ B₁, x.sha256 ≠ b0.sha256) (h₂ : ∀ x ∈ B₂, x.sha256 ≠ b0.sha256)
    (hrc : ¬ (b0.ref_count - 1 = 0)) :
    blob_unref st b0.sha256 =
      { st with blobs := B₁ ++ { b0 with ref_count := b0.ref_count - 1 } :: B₂ } := by
  have hf : st.blobs.find? (fun b => b.sha256 == b0.sha256) = some b0 := by
    rw [hb]
    exact find?_append_cons B₁ B₂ b0 (fun x hx => by simp [h₁ x hx]) (by simp)
  rw [blob_unref, hf]
  simp only [if_neg hrc]
  rw [hb]
  rw [map_update_keys_split (fun b => b.sha256) b0.sha256
    (fun b => { b with ref_count := b.ref_count - 1 }) B₁ B₂ b0 h₁ h₂ rfl]

theorem blob_unref_split_zero (st : DaemonState) (B₁ B₂ : List Blob) (b0 : Blob)
    (hb : st.blobs = B₁ ++ b0 :: B₂)
    (h₁ : ∀ x ∈ B₁, x.sha256 ≠ b0.sha256) (h₂ : ∀ x ∈ B₂, x.sha256 ≠ b0.sha256)
    (hrc : b0.ref_count - 1 = 0) :
    blob_unref st b0.sha256 =
      { st with real_blob_size := st.real_blob_size - b0.len,
                blobs := B₁ ++ B₂ } := by
  have hf : st.blobs.find? (fun b => b.sha256 == b0.sha256) = some b0 := by
    rw [hb]
    exact find?_append_cons B₁ B₂ b0 (fun x hx => by simp [h₁ x hx]) (by simp)
  rw [blob_unref, hf]
  simp only [if_pos hrc]
  rw [hb]
  rw [filter_keys_split (fun b => b.sha256) b0.sha256 B₁ B₂ b0 h₁ h₂ rfl]

theorem lookup_blob_hit (st : DaemonState) (s : String) (b0 : Blob)
    (hmem : b0 ∈ st.blobs) (hsha : b0.sha256 = s) :
    lookup_blob st s = (blob_ref st s, true) := by
  rw [lookup_blob]
  cases hf : st.blobs.find? (fun b => b.sha256 == s) with
  | none =>
    rw [List.find?_eq_none] at hf
    exact absurd (by simp [hsha]) (hf b0 hmem)
  | some b => rfl

theorem lookup_blob_miss (st : DaemonState) (s : String)
    (h : ∀ b ∈ st.blobs, b.sha256 ≠ s) :
    lookup_blob st s = (st, false) := by
  rw [lookup_blob]
  have hf : st.blobs.find? (fun b => b.sha256 == s) = none := by
    rw [List.find?_eq_none]
    intro b hb
    simp [h b hb]
  rw [hf]

theorem lookup_peer_known (st : DaemonState) (n : String) (p0 : Peer)
    (hmem : p0 ∈ st.peers) (hname : p0.name = n) :
    lookup_peer st n = st := by
  rw [lookup_peer, if_pos]
  rw [List.any_eq_true]
  exact ⟨p0, hmem, by simp [hname]⟩

theorem lookup_peer_new (st : DaemonState) (n : String)
    (h : ∀ p ∈ st.peers, p.name ≠ n) :
    lookup_peer st n = { st with peers := ⟨n, 1, []⟩ :: st.peers } := by
  rw [lookup_peer, if_neg]
  rw [List.any_eq_true]
  rintro ⟨p, hp, hpn⟩
  exact h p hp (by simpa using hpn)

theorem mem_append_cons_of_ne {α : Type} {l₁ l₂ : List α} {a b : α}
    (hb : b ∈ l₁ ++ a :: l₂) (hne : b ≠ a) : b ∈ l₁ ++ l₂ := by
  rcases List.mem_append.mp hb with h | h
  · exact List.mem_append_left _ h
  · rcases List.mem_cons.mp h with rfl | h
    · exact absurd rfl hne
    · exact List.mem_append_right _ h

theorem find?_append_cons_skip {α : Type} (p : α → Bool) (l₁ l₂ : List α) (a : α)
    (ha : p a = false) :
    (l₁ ++ a :: l₂).find? p = (l₁ ++ l₂).find? p := by
  induction l₁ with
  | nil =>
    simp only [List.nil_append]
    exact List.find?_cons_of_neg _ (by simp [ha])
  | cons b t ih =>
    by_cases hpb : p b = true
    · simp only [List.cons_append]
      rw [List.find?_cons_of_pos _ hpb, List.find?_cons_of_pos _ hpb]
    · simp only [List.cons_append]
      rw [List.find?_cons_of_neg _ (by simp [hpb]),
        List.find?_cons_of_neg _ (by simp [hpb])]
      exact ih

theorem no_entry_of_refTotal_zero (st : DaemonState) (x : String)
    (h : refTotal st x = 0) :
    ∀ p ∈ st.peers, ∀ e ∈ p.blobs, e.2 ≠ x := by
  intro p hp e he heq
  have hc : p.blobs.countP (fun e => e.2 == x) = 0 := by
    rw [refTotal] at h
    have := (List.sum_eq_zero_iff).mp h
    exact this _ (List.mem_map_of_mem _ hp)
  rw [List.countP_eq_zero] at hc
  exact hc e he (by simp [heq])

theorem apparentTotal_congr (st st' : DaemonState)
    (hp : st'.peers = st.peers)
    (hb : ∀ k, blob_len st' k = blob_len st k) :
    apparentTotal st' = apparentTotal st := by
  unfold apparentTotal
  rw [hp]
  exact congrArg List.sum
    (List.map_congr_left (fun p _ => peerEntriesLen_congr st st' p hb))

theorem realTotal_proj (st st' : DaemonState)
    (h : st'.blobs.map projBlob = st.blobs.map projBlob) :
    realTotal st' = realTotal st := by
  unfold realTotal
  exact congrArg List.sum (lens_eq_of_proj _ _ h)

theorem apparentTotal_peers (st st' : DaemonState) (P : List Peer)
    (hpeq : st'.peers = P) (hbl : ∀ k, blob_len st' k = blob_len st k) :
    apparentTotal st' = (P.map (fun p => peerEntriesLen st p)).sum := by
  unfold apparentTotal
  rw [hpeq]
  exact congrArg List.sum
    (List.map_congr_left (fun p _ => peerEntriesLen_congr st st' p hbl))

theorem blob_len_remove_middle (st st' : DaemonState) (B₁ B₂ : List Blob) (b0 : Blob)
    (hB : st.blobs = B₁ ++ b0 :: B₂) (hB' : st'.blobs = B₁ ++ B₂)
    (x : String) (hx : x ≠ b0.sha256) :
    blob_len st' x = blob_len st x := by
  unfold blob_len
  rw [hB, hB', find?_append_cons_skip _ B₁ B₂ b0 (by simp; exact fun h => hx h.symm)]

/-! ## Invariant preservation for the daemon primitives -/

theorem invAux_lookup_peer (st : DaemonState) (n : String) (pr pa : List String)
    (hinv : InvAux st pr pa) : InvAux (lookup_peer st n) pr pa := by
  by_cases hany : st.peers.any (fun p => p.name == n) = true
  · rw [lookup_peer, if_pos hany]
    exact hinv
  · have hnone : ∀ p ∈ st.peers, p.name ≠ n := by
      intro p hp hpn
      rw [List.any_eq_true] at hany
      exact hany ⟨p, hp, by simp [hpn]⟩
    rw [lookup_peer_new st n hnone]
    obtain ⟨hbk, hpk, hhk, hpos, hrc, hlive, hprl, hpac, hreal, happ⟩ := hinv
    refine ⟨hbk, ?_, ?_, hpos, ?_, ?_, hprl, hpac, hreal, ?_⟩
    · simp only [List.map_cons, List.nodup_cons]
      refine ⟨?_, hpk⟩
      intro hmem
      obtain ⟨p, hp, hpn⟩ := List.mem_map.mp hmem
      exact hnone p hp hpn
    · intro p hp
      rcases List.mem_cons.mp hp with rfl | hp
      · simp
      · exact hhk p hp
    · intro b hb
      rw [hrc b hb]
      have : refTotal { st with peers := ⟨n, 1, []⟩ :: st.peers } b.sha256 =
          refTotal st b.sha256 := by
        simp [refTotal]
      rw [this]
    · intro p hp
      rcases List.mem_cons.mp hp with rfl | hp
      · intro e he
        simp at he
      · exact hlive p hp
    · have : apparentTotal { st with peers := ⟨n, 1, []⟩ :: st.peers } =
          apparentTotal st := by
        simp [apparentTotal, peerEntriesLen]
        rfl
      rw [this]
      exact happ

theorem invAux_subApparent (st : DaemonState) (s : String) (pr pa : List String)
    (hinv : InvAux st pr (s :: pa)) :
    InvAux { st with apparent_blob_size := st.apparent_blob_size - blob_len st s }
      pr pa := by
  obtain ⟨hbk, hpk, hhk, hpos, hrc, hlive, hprl, hpac, hreal, happ⟩ := hinv
  refine ⟨hbk, hpk, hhk, hpos, hrc, hlive, hprl, ?_, hreal, ?_⟩
  · intro x hx
    have h1 := hpac x (List.mem_cons_of_mem s hx)
    have h2 : pa.count x ≤ (s :: pa).count x := by
      rw [List.count_cons]
      exact Nat.le_add_right _ _
    omega
  · simp only [List.map_cons, List.sum_cons] at happ
    show st.apparent_blob_size - blob_len st s =
      apparentTotal st + (pa.map (fun x => blob_len st x)).sum
    omega

theorem invAux_unref (st : DaemonState) (s : String) (pr pa : List String)
    (hinv : InvAux st (s :: pr) pa) (hpa : pa.count s ≤ pr.count s) :
    InvAux (blob_unref st s) pr pa := by
  obtain ⟨hbk, hpk, hhk, hpos, hrc, hlive, hprl, hpac, hreal, happ⟩ := hinv
  obtain ⟨b0, hb0mem, hb0sha⟩ := hprl s (List.mem_cons_self s pr)
  subst hb0sha
  obtain ⟨B₁, B₂, hB, h₁, h₂⟩ :=
    split_of_mem_keys (fun b => b.sha256) hbk hb0mem
  have hrc0 := hrc b0 hb0mem
  rw [List.count_cons_self] at hrc0
  by_cases hz : b0.ref_count - 1 = 0
  · -- the last reference: the blob dies
    have hzero : refTotal st b0.sha256 = 0 ∧ pr.count b0.sha256 = 0 := by
      have := hpos b0 hb0mem
      omega
    have hpa0 : pa.count b0.sha256 = 0 := by omega
    have hnoe := no_entry_of_refTotal_zero st b0.sha256 hzero.1
    rw [blob_unref_split_zero st B₁ B₂ b0 hB h₁ h₂ hz]
    refine ⟨?_, hpk, hhk, ?_, ?_, ?_, ?_, ?_, ?_, ?_⟩
    · -- blob keys still distinct
      have hsub : List.Sublist (B₁ ++ B₂) (B₁ ++ b0 :: B₂) :=
        List.Sublist.append (List.Sublist.refl B₁) (List.sublist_cons_self b0 B₂)
      rw [hB] at hbk
      exact List.Nodup.sublist (List.Sublist.map _ hsub) hbk
    · intro b hb
      have hbmem : b ∈ st.blobs := by
        rw [hB]
        rcases List.mem_append.mp hb with h | h
        · exact List.mem_append_left _ h
        · exact List.mem_append_right _ (List.mem_cons_of_mem _ h)
      exact hpos b hbmem
    · intro b hb
      have hbne : b.sha256 ≠ b0.sha256 := by
        rcases List.mem_append.mp hb with h | h
        · exact h₁ b h
        · exact h₂ b h
      have hbmem : b ∈ st.blobs := by
        rw [hB]
        rcases List.mem_append.mp hb with h | h
        · exact List.mem_append_left _ h
        · exact List.mem_append_right _ (List.mem_cons_of_mem _ h)
      have := hrc b hbmem
      rw [List.count_cons_of_ne hbne] at this
      rw [this]
      rfl
    · intro p hp e he
      have hene : e.2 ≠ b0.sha256 := hnoe p hp e he
      obtain ⟨b, hbmem, hbsha⟩ := hlive p hp e he
      refine ⟨b, ?_, hbsha⟩
      rw [hB] at hbmem
      exact mem_append_cons_of_ne hbmem (fun h => hene (by rw [← hbsha, h]))
    · intro x hx
      have hxne : x ≠ b0.sha256 := by
        intro h
        subst h
        have := List.count_pos_iff.mpr hx
        omega
      obtain ⟨b, hbmem, hbsha⟩ := hprl x (List.mem_cons_of_mem _ hx)
      refine ⟨b, ?_, hbsha⟩
      rw [hB] at hbmem
      exact mem_append_cons_of_ne hbmem (fun h => hxne (by rw [← hbsha, h]))
    · intro x hx
      have h1 := hpac x hx
      by_cases hxs : x = b0.sha256
      · subst hxs
        omega
      · rw [List.count_cons_of_ne hxs] at h1
        exact h1
    · -- real size accounting
      show st.real_blob_size - b0.len =
        realTotal { st with
          real_blob_size := st.real_blob_size - b0.len, blobs := B₁ ++ B₂ }
      have hrt : realTotal st = (B₁.map (fun b => b.len)).sum + b0.len +
          (B₂.map (fun b => b.len)).sum := by
        rw [realTotal, hB]
        simp [List.sum_append]
        omega
      have hrt' : realTotal { st with
          real_blob_size := st.real_blob_size - b0.len, blobs := B₁ ++ B₂ } =
          (B₁.map (fun b => b.len)).sum + (B₂.map (fun b => b.len)).sum := by
        rw [realTotal]
        simp [List.sum_append]
      omega
    · -- apparent size accounting
      have hbl : ∀ x, x ≠ b0.sha256 →
          blob_len { st with
            real_blob_size := st.real_blob_size - b0.len,
            blobs := B₁ ++ B₂ } x = blob_len st x := by
        intro x hx
        exact blob_len_remove_middle st _ B₁ B₂ b0 hB rfl x hx
      have hat : apparentTotal { st with
          real_blob_size := st.real_blob_size - b0.len, blobs := B₁ ++ B₂ } =
          apparentTotal st := by
        unfold apparentTotal
        apply congrArg List.sum
        apply List.map_congr_left
        intro p hp
        unfold peerEntriesLen
        apply congrArg List.sum
        apply List.map_congr_left
        intro e he
        exact hbl e.2 (hnoe p hp e he)
      have hps : (pa.map (fun x => blob_len { st with
          real_blob_size := st.real_blob_size - b0.len, blobs := B₁ ++ B₂ } x)).sum =
          (pa.map (fun x => blob_len st x)).sum := by
        apply congrArg List.sum
        apply List.map_congr_left
        intro x hx
        refine hbl x ?_
        intro h
        subst h
        have := List.count_pos_iff.mpr hx
        omega
      show st.apparent_blob_size = _
      rw [hat, hps]
      exact happ
  · -- more references remain: only the count drops
    rw [blob_unref_split_dec st B₁ B₂ b0 hB h₁ h₂ hz]
    have hproj : ((B₁ ++ { b0 with ref_count := b0.ref_count - 1 } :: B₂ :
        List Blob).map projBlob) = st.blobs.map projBlob := by
      rw [hB]
      simp [projBlob]
    have hkeys : ((B₁ ++ { b0 with ref_count := b0.ref_count - 1 } :: B₂ :
        List Blob).map (fun b => b.sha256)) = st.blobs.map (fun b => b.sha256) :=
      keys_eq_of_proj _ _ hproj
    have hbl : ∀ k, blob_len { st with
        blobs := B₁ ++ { b0 with ref_count := b0.ref_count - 1 } :: B₂ } k =
        blob_len st k :=
      blob_len_congr st _ hproj
    refine ⟨?_, hpk, hhk, ?_, ?_, ?_, ?_, ?_, ?_, ?_⟩
    · show ((B₁ ++ { b0 with ref_count := b0.ref_count - 1 } :: B₂ :
        List Blob).map (fun b => b.sha256)).Nodup
      rw [hkeys]
      exact hbk
    · intro b hb
      rcases List.mem_append.mp hb with h | h
      · have hbmem : b ∈ st.blobs := by
          rw [hB]
          exact List.mem_append_left _ h
        exact hpos b hbmem
      · rcases List.mem_cons.mp h with rfl | h
        · simp
          omega
        · have hbmem : b ∈ st.blobs := by
            rw [hB]
            exact List.mem_append_right _ (List.mem_cons_of_mem _ h)
          exact hpos b hbmem
    · intro b hb
      have href : refTotal { st with
          blobs := B₁ ++ { b0 with ref_count := b0.ref_count - 1 } :: B₂ } =
          refTotal st := rfl
      rcases List.mem_append.mp hb with h | h
      · have hbne := h₁ b h
        have hbmem : b ∈ st.blobs := by
          rw [hB]
          exact List.mem_append_left _ h
        have := hrc b hbmem
        rw [List.count_cons_of_ne hbne] at this
        rw [this, href]
      · rcases List.mem_cons.mp h with rfl | h
        · rw [href]
          show b0.ref_count - 1 = refTotal st b0.sha256 + pr.count b0.sha256
          omega
        · have hbne := h₂ b h
          have hbmem : b ∈ st.blobs := by
            rw [hB]
            exact List.mem_append_right _ (List.mem_cons_of_mem _ h)
          have := hrc b hbmem
          rw [List.count_cons_of_ne hbne] at this
          rw [this, href]
    · intro p hp e he
      obtain ⟨b, hbmem, hbsha⟩ := hlive p hp e he
      have : e.2 ∈ (st.blobs.map (fun b => b.sha256)) := by
        rw [← hbsha]
        exact List.mem_map_of_mem _ hbmem
      rw [← hkeys] at this
      exact (exists_sha_iff _ _).mpr this
    · intro x hx
      obtain ⟨b, hbmem, hbsha⟩ := hprl x (List.mem_cons_of_mem _ hx)
      have : x ∈ (st.blobs.map (fun b => b.sha256)) := by
        rw [← hbsha]
        exact List.mem_map_of_mem _ hbmem
      rw [← hkeys] at this
      exact (exists_sha_iff _ _).mpr this
    · intro x hx
      have h1 := hpac x hx
      by_cases hxs : x = b0.sha256
      · subst hxs
        omega
      · rw [List.count_cons_of_ne hxs] at h1
        exact h1
    · show st.real_blob_size = _
      rw [realTotal_proj st _ (by exact hproj)]
      exact hreal
    · show st.apparent_blob_size = _
      have hat := apparentTotal_congr st
        { st with blobs := B₁ ++ { b0 with ref_count := b0.ref_count - 1 } :: B₂ }
        rfl hbl
      rw [hat]
      have hps : (pa.map (fun x => blob_len { st with
          blobs := B₁ ++ { b0 with ref_count := b0.ref_count - 1 } :: B₂ } x)).sum =
          (pa.map (fun x => blob_len st x)).sum := by
        apply congrArg List.sum
        apply List.map_congr_left
        intro x _
        exact hbl x
      rw [hps]
      exact happ

theorem invAux_cb (st : DaemonState) (s : String) (pr pa : List String)
    (hinv : InvAux st (s :: pr) (s :: pa)) :
    InvAux (removed_blob_from_peer_cb st s) pr pa := by
  have hpa : pa.count s ≤ pr.count s := by
    have := hinv.2.2.2.2.2.2.2.1 s (List.mem_cons_self s pa)
    rw [List.count_cons_self, List.count_cons_self] at this
    omega
  rw [removed_blob_from_peer_cb]
  exact invAux_unref _ s pr pa (invAux_subApparent st s (s :: pr) pa hinv) hpa

theorem refTotal_peers_eq (st st' : DaemonState) (h : st'.peers = st.peers)
    (x : String) : refTotal st' x = refTotal st x := by
  unfold refTotal
  rw [h]

theorem invAux_remove_entry (st : DaemonState) (P₁ P₂ : List Peer) (p0 : Peer)
    (E₁ E₂ : List (Nat × String)) (e0 : Nat × String) (pr pa : List String)
    (hinv : InvAux st pr pa)
    (hp : st.peers = P₁ ++ p0 :: P₂)
    (hE : p0.blobs = E₁ ++ e0 :: E₂) :
    InvAux { st with peers := P₁ ++ { p0 with blobs := E₁ ++ E₂ } :: P₂ }
      (e0.2 :: pr) (e0.2 :: pa) := by
  obtain ⟨hbk, hpk, hhk, hpos, hrc, hlive, hprl, hpac, hreal, happ⟩ := hinv
  have hp0mem : p0 ∈ st.peers := by
    rw [hp]
    exact List.mem_append_right _ (List.mem_cons_self _ _)
  have he0mem : e0 ∈ p0.blobs := by
    rw [hE]
    exact List.mem_append_right _ (List.mem_cons_self _ _)
  have href : ∀ x, refTotal st x =
      refTotal { st with peers := P₁ ++ { p0 with blobs := E₁ ++ E₂ } :: P₂ } x +
        (if e0.2 == x then 1 else 0) := by
    intro x
    unfold refTotal
    rw [hp]
    simp only [List.map_append, List.map_cons, List.sum_append, List.sum_cons, hE,
      List.countP_append, List.countP_cons]
    omega
  have hpel : peerEntriesLen st p0 =
      (E₁.map (fun e => blob_len st e.2)).sum + blob_len st e0.2 +
      (E₂.map (fun e => blob_len st e.2)).sum := by
    unfold peerEntriesLen
    rw [hE]
    simp [List.sum_append]
    omega
  refine ⟨hbk, ?_, ?_, hpos, ?_, ?_, ?_, ?_, hreal, ?_⟩
  · show ((P₁ ++ { p0 with blobs := E₁ ++ E₂ } :: P₂).map (fun p => p.name)).Nodup
    have : (P₁ ++ { p0 with blobs := E₁ ++ E₂ } :: P₂).map (fun p => p.name) =
        st.peers.map (fun p => p.name) := by
      rw [hp]
      simp
    rw [this]
    exact hpk
  · intro p hpmem
    rcases List.mem_append.mp hpmem with h | h
    · exact hhk p (by rw [hp]; exact List.mem_append_left _ h)
    · rcases List.mem_cons.mp h with rfl | h
      · show ((E₁ ++ E₂).map (fun e => e.1)).Nodup
        have := hhk p0 hp0mem
        rw [hE] at this
        have hsub : List.Sublist (E₁ ++ E₂) (E₁ ++ e0 :: E₂) :=
          List.Sublist.append (List.Sublist.refl E₁) (List.sublist_cons_self e0 E₂)
        exact List.Nodup.sublist (List.Sublist.map _ hsub) this
      · exact hhk p (by rw [hp]; exact List.mem_append_right _ (List.mem_cons_of_mem _ h))
  · intro b hb
    have h1 := hrc b hb
    have h2 := href b.sha256
    rw [List.count_cons]
    by_cases hbe : e0.2 = b.sha256
    · rw [if_pos (by simp [hbe])] at h2
      rw [if_pos (by simp [hbe])]
      omega
    · rw [if_neg (by simp [hbe])] at h2
      rw [if_neg (by simp [hbe])]
      omega
  · intro p hpmem e he
    rcases List.mem_append.mp hpmem with h | h
    · exact hlive p (by rw [hp]; exact List.mem_append_left _ h) e he
    · rcases List.mem_cons.mp h with rfl | h
      · refine hlive p0 hp0mem e ?_
        rw [hE]
        rcases List.mem_append.mp he with h | h
        · exact List.mem_append_left _ h
        · exact List.mem_append_right _ (List.mem_cons_of_mem _ h)
      · exact hlive p (by rw [hp]; exact List.mem_append_right _ (List.mem_cons_of_mem _ h)) e he
  · intro x hx
    rcases List.mem_cons.mp hx with rfl | hx
    · exact hlive p0 hp0mem e0 he0mem
    · exact hprl x hx
  · intro x hx
    rw [List.count_cons, List.count_cons]
    by_cases hxpa : x ∈ pa
    · have := hpac x hxpa
      omega
    · have : pa.count x = 0 := by
        rw [List.count_eq_zero]
        exact hxpa
      omega
  · show st.apparent_blob_size = _
    have h2 := apparentTotal_peers st
      { st with peers := P₁ ++ { p0 with blobs := E₁ ++ E₂ } :: P₂ }
      (P₁ ++ { p0 with blobs := E₁ ++ E₂ } :: P₂) rfl (fun k => rfl)
    have h1 := apparentTotal_peers st st (P₁ ++ p0 :: P₂) hp (fun k => rfl)
    have hpel' : peerEntriesLen st { p0 with blobs := E₁ ++ E₂ } =
        (E₁.map (fun e => blob_len st e.2)).sum +
        (E₂.map (fun e => blob_len st e.2)).sum := by
      unfold peerEntriesLen
      simp [List.sum_append]
    have hblst : ∀ k, blob_len
        { st with peers := P₁ ++ { p0 with blobs := E₁ ++ E₂ } :: P₂ } k =
        blob_len st k := fun k => rfl
    simp only [List.map_append, List.map_cons, List.sum_append, List.sum_cons] at h1 h2
    simp only [List.map_cons, List.sum_cons, hblst]
    rw [h2, hpel']
    rw [h1, hpel] at happ
    omega

theorem invAux_insert_entry (st : DaemonState) (P₁ P₂ : List Peer) (p0 : Peer)
    (sha : String) (id nid : Nat) (pr pa : List String)
    (hinv : InvAux st pr pa)
    (hp : st.peers = P₁ ++ p0 :: P₂)
    (hsha : ∃ b ∈ st.blobs, b.sha256 = sha)
    (hid : ∀ e ∈ p0.blobs, e.1 ≠ id) :
    InvAux { st with
      apparent_blob_size := st.apparent_blob_size + blob_len st sha,
      blobs := (blob_ref st sha).blobs,
      peers := P₁ ++ { p0 with next_blob_id := nid, blobs := (id, sha) :: p0.blobs } :: P₂ } pr pa := by
  obtain ⟨hbk, hpk, hhk, hpos, hrc, hlive, hprl, hpac, hreal, happ⟩ := hinv
  obtain ⟨b0, hb0mem, hb0sha⟩ := hsha
  subst hb0sha
  have hp0mem : p0 ∈ st.peers := by
    rw [hp]
    exact List.mem_append_right _ (List.mem_cons_self _ _)
  obtain ⟨B₁, B₂, hB, hB₁, hB₂⟩ :=
    split_of_mem_keys (fun b => b.sha256) hbk hb0mem
  have hrefblobs : (blob_ref st b0.sha256).blobs =
      B₁ ++ { b0 with ref_count := b0.ref_count + 1 } :: B₂ :=
    blob_ref_split st B₁ B₂ b0 hB hB₁ hB₂
  have hproj := blob_ref_proj st b0.sha256
  have hkeys := keys_eq_of_proj _ _ hproj
  have hbl : ∀ k, blob_len { st with
      apparent_blob_size := st.apparent_blob_size + blob_len st b0.sha256,
      blobs := (blob_ref st b0.sha256).blobs,
      peers := P₁ ++ { p0 with next_blob_id := nid, blobs := (id, b0.sha256) :: p0.blobs } :: P₂ } k = blob_len st k := by
    intro k
    exact blob_len_congr st _ hproj k
  have href : ∀ x, refTotal { st with
      apparent_blob_size := st.apparent_blob_size + blob_len st b0.sha256,
      blobs := (blob_ref st b0.sha256).blobs,
      peers := P₁ ++ { p0 with next_blob_id := nid, blobs := (id, b0.sha256) :: p0.blobs } :: P₂ } x =
      refTotal st x + (if b0.sha256 == x then 1 else 0) := by
    intro x
    unfold refTotal
    rw [hp]
    simp only [List.map_append, List.map_cons, List.sum_append, List.sum_cons,
      List.countP_cons]
    omega
  refine ⟨?_, ?_, ?_, ?_, ?_, ?_, ?_, hpac, ?_, ?_⟩
  · show ((blob_ref st b0.sha256).blobs.map (fun b => b.sha256)).Nodup
    rw [hkeys]
    exact hbk
  · show ((P₁ ++ { p0 with next_blob_id := nid, blobs := (id, b0.sha256) :: p0.blobs } :: P₂).map (fun p => p.name)).Nodup
    have : (P₁ ++ { p0 with next_blob_id := nid, blobs := (id, b0.sha256) :: p0.blobs } :: P₂).map (fun p => p.name) =
        st.peers.map (fun p => p.name) := by
      rw [hp]
      simp
    rw [this]
    exact hpk
  · intro p hpmem
    rcases List.mem_append.mp hpmem with h | h
    · exact hhk p (by rw [hp]; exact List.mem_append_left _ h)
    · rcases List.mem_cons.mp h with rfl | h
      · show ((id, b0.sha256) :: p0.blobs).map (fun e => e.1) |>.Nodup
        simp only [List.map_cons, List.nodup_cons]
        constructor
        · intro hmem
          obtain ⟨e, he, hkey⟩ := List.mem_map.mp hmem
          exact hid e he hkey
        · exact hhk p0 hp0mem
      · exact hhk p (by rw [hp]; exact List.mem_append_right _ (List.mem_cons_of_mem _ h))
  · intro b hb
    rw [show ({ st with
      apparent_blob_size := st.apparent_blob_size + blob_len st b0.sha256,
      blobs := (blob_ref st b0.sha256).blobs,
      peers := P₁ ++ { p0 with next_blob_id := nid, blobs := (id, b0.sha256) :: p0.blobs } :: P₂ } : DaemonState).blobs =
      (blob_ref st b0.sha256).blobs from rfl, hrefblobs] at hb
    rcases List.mem_append.mp hb with h | h
    · exact hpos b (by rw [hB]; exact List.mem_append_left _ h)
    · rcases List.mem_cons.mp h with rfl | h
      · simp
      · exact hpos b (by rw [hB]; exact List.mem_append_right _ (List.mem_cons_of_mem _ h))
  · intro b hb
    rw [show ({ st with
      apparent_blob_size := st.apparent_blob_size + blob_len st b0.sha256,
      blobs := (blob_ref st b0.sha256).blobs,
      peers := P₁ ++ { p0 with next_blob_id := nid, blobs := (id, b0.sha256) :: p0.blobs } :: P₂ } : DaemonState).blobs =
      (blob_ref st b0.sha256).blobs from rfl, hrefblobs] at hb
    rw [href b.sha256]
    rcases List.mem_append.mp hb with h | h
    · have hbne := hB₁ b h
      have hbmem : b ∈ st.blobs := by
        rw [hB]
        exact List.mem_append_left _ h
      rw [if_neg (by simp; exact fun hh => hbne hh.symm)]
      have := hrc b hbmem
      omega
    · rcases List.mem_cons.mp h with rfl | h
      · rw [if_pos (by simp)]
        have := hrc b0 hb0mem
        show b0.ref_count + 1 =
          refTotal st b0.sha256 + 1 + List.count b0.sha256 pr
        omega
      · have hbne := hB₂ b h
        have hbmem : b ∈ st.blobs := by
          rw [hB]
          exact List.mem_append_right _ (List.mem_cons_of_mem _ h)
        rw [if_neg (by simp; exact fun hh => hbne hh.symm)]
        have := hrc b hbmem
        omega
  · intro p hpmem e he
    have htrans : ∀ x : String, (∃ b ∈ st.blobs, b.sha256 = x) →
        ∃ b ∈ (blob_ref st b0.sha256).blobs, b.sha256 = x := by
      intro x hx
      rw [exists_sha_iff] at hx ⊢
      rw [hkeys]
      exact hx
    rcases List.mem_append.mp hpmem with h | h
    · exact htrans e.2 (hlive p (by rw [hp]; exact List.mem_append_left _ h) e he)
    · rcases List.mem_cons.mp h with rfl | h
      · rcases List.mem_cons.mp he with rfl | he
        · refine htrans b0.sha256 ⟨b0, hb0mem, rfl⟩
        · exact htrans e.2 (hlive p0 hp0mem e he)
      · exact htrans e.2 (hlive p (by rw [hp]; exact List.mem_append_right _ (List.mem_cons_of_mem _ h)) e he)
  · intro x hx
    have := hprl x hx
    rw [exists_sha_iff] at this ⊢
    rw [hkeys]
    exact this
  · show st.real_blob_size = _
    rw [realTotal_proj st
      { st with
        apparent_blob_size := st.apparent_blob_size + blob_len st b0.sha256,
        blobs := (blob_ref st b0.sha256).blobs,
        peers := P₁ ++ { p0 with next_blob_id := nid, blobs := (id, b0.sha256) :: p0.blobs } :: P₂ }
      hproj]
    exact hreal
  · show st.apparent_blob_size + blob_len st b0.sha256 = _
    have h2 := apparentTotal_peers st
      { st with
        apparent_blob_size := st.apparent_blob_size + blob_len st b0.sha256,
        blobs := (blob_ref st b0.sha256).blobs,
        peers := P₁ ++ { p0 with next_blob_id := nid, blobs := (id, b0.sha256) :: p0.blobs } :: P₂ }
      (P₁ ++ { p0 with next_blob_id := nid, blobs := (id, b0.sha256) :: p0.blobs } :: P₂)
      rfl hbl
    have h1 := apparentTotal_peers st st (P₁ ++ p0 :: P₂) hp (fun k => rfl)
    have hpel0 : peerEntriesLen st { p0 with next_blob_id := nid, blobs := (id, b0.sha256) :: p0.blobs } =
        blob_len st b0.sha256 + peerEntriesLen st p0 := by
      unfold peerEntriesLen
      simp
    simp only [List.map_append, List.map_cons, List.sum_append, List.sum_cons] at h1 h2
    rw [h2, hpel0]
    have hps : (pa.map (fun s => blob_len { st with
        apparent_blob_size := st.apparent_blob_size + blob_len st b0.sha256,
        blobs := (blob_ref st b0.sha256).blobs,
        peers := P₁ ++ { p0 with next_blob_id := nid, blobs := (id, b0.sha256) :: p0.blobs } :: P₂ } s)).sum =
        (pa.map (fun s => blob_len st s)).sum :=
      congrArg List.sum (List.map_congr_left (fun s _ => hbl s))
    rw [hps]
    rw [h1] at happ
    omega

theorem add_char_nocol (st : DaemonState) (n sha : String) (p0 : Peer)
    (P₁ P₂ : List Peer)
    (hp : st.peers = P₁ ++ p0 :: P₂) (hp0n : p0.name = n)
    (hn₁ : ∀ x ∈ P₁, x.name ≠ n) (hn₂ : ∀ x ∈ P₂, x.name ≠ n)
    (hid : ∀ e ∈ p0.blobs, e.1 ≠ p0.next_blob_id) :
    add_blob_to_peer st n sha =
      ({ st with
        apparent_blob_size := st.apparent_blob_size + blob_len st sha,
        blobs := (blob_ref st sha).blobs,
        peers := P₁ ++ { p0 with next_blob_id := (p0.next_blob_id + 1) % 2 ^ 32, blobs := (p0.next_blob_id, sha) :: p0.blobs } :: P₂ },
       p0.next_blob_id) := by
  have hp0mem : p0 ∈ st.peers := by
    rw [hp]
    exact List.mem_append_right _ (List.mem_cons_self _ _)
  have hlk : lookup_peer st n = st := lookup_peer_known st n p0 hp0mem hp0n
  have hfind : st.peers.find? (fun p => p.name == n) = some p0 := by
    rw [hp]
    exact find?_append_cons P₁ _ p0 (fun x hx => by simp [hn₁ x hx]) (by simp [hp0n])
  have hoe : p0.blobs.find? (fun e => e.1 == p0.next_blob_id) = none := by
    rw [List.find?_eq_none]
    intro e he
    simp [hid e he]
  have hfil : p0.blobs.filter (fun e => e.1 != p0.next_blob_id) = p0.blobs :=
    List.filter_eq_self.mpr (fun e he => by simp [hid e he])
  have hmap : st.peers.map (fun p =>
      if p.name == n then
        { p with next_blob_id := (p.next_blob_id + 1) % 2 ^ 32,
                 blobs := (p0.next_blob_id, sha) :: p.blobs.filter (fun e => e.1 != p0.next_blob_id) }
      else p) =
      P₁ ++ { p0 with next_blob_id := (p0.next_blob_id + 1) % 2 ^ 32, blobs := (p0.next_blob_id, sha) :: p0.blobs } :: P₂ := by
    rw [hp]
    rw [map_update_keys_split (fun p => p.name) n (fun p =>
      { p with next_blob_id := (p.next_blob_id + 1) % 2 ^ 32,
               blobs := (p0.next_blob_id, sha) :: p.blobs.filter (fun e => e.1 != p0.next_blob_id) })
      P₁ P₂ p0 hn₁ hn₂ hp0n]
    rw [hfil]
  simp only [add_blob_to_peer, hlk, hfind, hoe]
  refine congrArg₂ Prod.mk ?_ rfl
  show ({ st with
    apparent_blob_size := st.apparent_blob_size + blob_len st sha,
    blobs := (blob_ref st sha).blobs,
    peers := st.peers.map (fun p =>
      if p.name == n then
        { p with next_blob_id := (p.next_blob_id + 1) % 2 ^ 32,
                 blobs := (p0.next_blob_id, sha) :: p.blobs.filter (fun e => e.1 != p0.next_blob_id) }
      else p) } : DaemonState) = _
  rw [hmap]

theorem add_char_col (st : DaemonState) (n sha : String) (p0 : Peer)
    (P₁ P₂ : List Peer) (E₁ E₂ : List (Nat × String)) (e0 : Nat × String)
    (hp : st.peers = P₁ ++ p0 :: P₂) (hp0n : p0.name = n)
    (hn₁ : ∀ x ∈ P₁, x.name ≠ n) (hn₂ : ∀ x ∈ P₂, x.name ≠ n)
    (hE : p0.blobs = E₁ ++ e0 :: E₂) (he0 : e0.1 = p0.next_blob_id)
    (hE₁ : ∀ x ∈ E₁, x.1 ≠ p0.next_blob_id) (hE₂ : ∀ x ∈ E₂, x.1 ≠ p0.next_blob_id) :
    add_blob_to_peer st n sha =
      (removed_blob_from_peer_cb
        { st with
          apparent_blob_size := st.apparent_blob_size + blob_len st sha,
          blobs := (blob_ref st sha).blobs,
          peers := P₁ ++ { p0 with next_blob_id := (p0.next_blob_id + 1) % 2 ^ 32, blobs := (p0.next_blob_id, sha) :: (E₁ ++ E₂) } :: P₂ }
        e0.2,
       p0.next_blob_id) := by
  have hp0mem : p0 ∈ st.peers := by
    rw [hp]
    exact List.mem_append_right _ (List.mem_cons_self _ _)
  have hlk : lookup_peer st n = st := lookup_peer_known st n p0 hp0mem hp0n
  have hfind : st.peers.find? (fun p => p.name == n) = some p0 := by
    rw [hp]
    exact find?_append_cons P₁ _ p0 (fun x hx => by simp [hn₁ x hx]) (by simp [hp0n])
  have hoe : p0.blobs.find? (fun e => e.1 == p0.next_blob_id) = some e0 := by
    rw [hE]
    exact find?_append_cons E₁ _ e0 (fun x hx => by simp [hE₁ x hx]) (by simp [he0])
  have hfil : p0.blobs.filter (fun e => e.1 != p0.next_blob_id) = E₁ ++ E₂ := by
    rw [hE]
    exact filter_keys_split (fun e => e.1) p0.next_blob_id E₁ E₂ e0 hE₁ hE₂ he0
  have hmap : st.peers.map (fun p =>
      if p.name == n then
        { p with next_blob_id := (p.next_blob_id + 1) % 2 ^ 32,
                 blobs := (p0.next_blob_id, sha) :: p.blobs.filter (fun e => e.1 != p0.next_blob_id) }
      else p) =
      P₁ ++ { p0 with next_blob_id := (p0.next_blob_id + 1) % 2 ^ 32, blobs := (p0.next_blob_id, sha) :: (E₁ ++ E₂) } :: P₂ := by
    rw [hp]
    rw [map_update_keys_split (fun p => p.name) n (fun p =>
      { p with next_blob_id := (p.next_blob_id + 1) % 2 ^ 32,
               blobs := (p0.next_blob_id, sha) :: p.blobs.filter (fun e => e.1 != p0.next_blob_id) })
      P₁ P₂ p0 hn₁ hn₂ hp0n]
    rw [hfil]
  simp only [add_blob_to_peer, hlk, hfind, hoe]
  refine congrArg₂ Prod.mk ?_ rfl
  show removed_blob_from_peer_cb ({ st with
    apparent_blob_size := st.apparent_blob_size + blob_len st sha,
    blobs := (blob_ref st sha).blobs,
    peers := st.peers.map (fun p =>
      if p.name == n then
        { p with next_blob_id := (p.next_blob_id + 1) % 2 ^ 32,
                 blobs := (p0.next_blob_id, sha) :: p.blobs.filter (fun e => e.1 != p0.next_blob_id) }
      else p) } : DaemonState) e0.2 = _
  rw [hmap]

theorem lookup_peer_idem (st : DaemonState) (n : String) :
    lookup_peer (lookup_peer st n) n = lookup_peer st n := by
  by_cases hany : st.peers.any (fun p => p.name == n) = true
  · have hst : lookup_peer st n = st := by
      rw [lookup_peer, if_pos hany]
    rw [hst]
    exact hst
  · rw [List.any_eq_true] at hany
    have hn : ∀ p ∈ st.peers, p.name ≠ n := by
      intro p hp hpn
      exact hany ⟨p, hp, by simp [hpn]⟩
    rw [lookup_peer_new st n hn]
    exact lookup_peer_known _ n ⟨n, 1, []⟩ (List.mem_cons_self _ _) rfl

theorem add_blob_to_peer_lookup (st : DaemonState) (n sha : String) :
    add_blob_to_peer st n sha = add_blob_to_peer (lookup_peer st n) n sha := by
  simp only [add_blob_to_peer, lookup_peer_idem]

theorem add_char_new (st : DaemonState) (n sha : String)
    (hn : ∀ p ∈ st.peers, p.name ≠ n) :
    add_blob_to_peer st n sha =
      ({ st with
        apparent_blob_size := st.apparent_blob_size + blob_len st sha,
        blobs := (blob_ref st sha).blobs,
        peers := { name := n, next_blob_id := (1 + 1) % 2 ^ 32, blobs := [(1, sha)] } :: st.peers },
       1) := by
  rw [add_blob_to_peer_lookup, lookup_peer_new st n hn]
  rw [add_char_nocol { st with peers := ⟨n, 1, []⟩ :: st.peers } n sha ⟨n, 1, []⟩
    [] st.peers rfl rfl (fun x hx => absurd hx (List.not_mem_nil x)) hn
    (fun e he => absurd he (List.not_mem_nil e))]
  rfl

theorem invAux_add (st : DaemonState) (n sha : String) (pr pa : List String)
    (hinv : InvAux st pr pa) (hsha : ∃ b ∈ st.blobs, b.sha256 = sha) :
    InvAux (add_blob_to_peer st n sha).1 pr pa := by
  by_cases hany : st.peers.any (fun p => p.name == n) = true
  · obtain ⟨p0, hp0mem, hp0n⟩ : ∃ p ∈ st.peers, p.name = n := by
      rw [List.any_eq_true] at hany
      obtain ⟨p, hpmem, hpn⟩ := hany
      exact ⟨p, hpmem, by simpa using hpn⟩
    obtain ⟨P₁, P₂, hp, hn₁, hn₂⟩ :=
      split_of_mem_keys (fun p => p.name) hinv.2.1 hp0mem
    rw [hp0n] at hn₁ hn₂
    by_cases hcol : ∃ e ∈ p0.blobs, e.1 = p0.next_blob_id
    · obtain ⟨e0, he0mem, he0⟩ := hcol
      obtain ⟨E₁, E₂, hE, hE₁, hE₂⟩ :=
        split_of_mem_keys (fun e => e.1) (hinv.2.2.1 p0 hp0mem) he0mem
      rw [he0] at hE₁ hE₂
      rw [add_char_col st n sha p0 P₁ P₂ E₁ E₂ e0 hp hp0n hn₁ hn₂ hE he0 hE₁ hE₂]
      apply invAux_cb
      have hrm := invAux_remove_entry st P₁ P₂ p0 E₁ E₂ e0 pr pa hinv hp hE
      have hidA : ∀ e ∈ ({ p0 with blobs := E₁ ++ E₂ } : Peer).blobs,
          e.1 ≠ p0.next_blob_id := by
        intro e he
        rcases List.mem_append.mp he with h | h
        · exact hE₁ e h
        · exact hE₂ e h
      exact invAux_insert_entry
        { st with peers := P₁ ++ { p0 with blobs := E₁ ++ E₂ } :: P₂ }
        P₁ P₂ { p0 with blobs := E₁ ++ E₂ } sha p0.next_blob_id
        ((p0.next_blob_id + 1) % 2 ^ 32) (e0.2 :: pr) (e0.2 :: pa)
        hrm rfl hsha hidA
    · have hid : ∀ e ∈ p0.blobs, e.1 ≠ p0.next_blob_id := by
        intro e he heq
        exact hcol ⟨e, he, heq⟩
      rw [add_char_nocol st n sha p0 P₁ P₂ hp hp0n hn₁ hn₂ hid]
      exact invAux_insert_entry st P₁ P₂ p0 sha p0.next_blob_id
        ((p0.next_blob_id + 1) % 2 ^ 32) pr pa hinv hp hsha hid
  · have hn : ∀ p ∈ st.peers, p.name ≠ n := by
      intro p hpmem hpn
      rw [List.any_eq_true] at hany
      exact hany ⟨p, hpmem, by simp [hpn]⟩
    rw [add_char_new st n sha hn]
    have h1 := invAux_lookup_peer st n pr pa hinv
    rw [lookup_peer_new st n hn] at h1
    exact invAux_insert_entry { st with peers := ⟨n, 1, []⟩ :: st.peers }
      [] st.peers ⟨n, 1, []⟩ sha 1 ((1 + 1) % 2 ^ 32) pr pa h1 rfl hsha
      (fun e he => absurd he (List.not_mem_nil e))

theorem invAux_ref_hit (st : DaemonState) (sha : String) (pr pa : List String)
    (hinv : InvAux st pr pa) (hb : ∃ b ∈ st.blobs, b.sha256 = sha) :
    InvAux (blob_ref st sha) (sha :: pr) pa := by
  obtain ⟨hbk, hpk, hhk, hpos, hrc, hlive, hprl, hpac, hreal, happ⟩ := hinv
  obtain ⟨b0, hb0mem, hb0sha⟩ := hb
  subst hb0sha
  obtain ⟨B₁, B₂, hB, hB₁, hB₂⟩ :=
    split_of_mem_keys (fun b => b.sha256) hbk hb0mem
  have hrefblobs := blob_ref_split st B₁ B₂ b0 hB hB₁ hB₂
  have hproj := blob_ref_proj st b0.sha256
  have hkeys := keys_eq_of_proj _ _ hproj
  have hbl : ∀ k, blob_len (blob_ref st b0.sha256) k = blob_len st k :=
    blob_len_congr st _ hproj
  refine ⟨?_, hpk, hhk, ?_, ?_, ?_, ?_, ?_, ?_, ?_⟩
  · show ((blob_ref st b0.sha256).blobs.map (fun b => b.sha256)).Nodup
    rw [hkeys]
    exact hbk
  · intro b hb
    rw [hrefblobs] at hb
    rcases List.mem_append.mp hb with h | h
    · have hbmem : b ∈ st.blobs := by
        rw [hB]
        exact List.mem_append_left _ h
      exact hpos b hbmem
    · rcases List.mem_cons.mp h with rfl | h
      · simp
      · have hbmem : b ∈ st.blobs := by
          rw [hB]
          exact List.mem_append_right _ (List.mem_cons_of_mem _ h)
        exact hpos b hbmem
  · intro b hb
    rw [hrefblobs] at hb
    have hrteq : ∀ x, refTotal (blob_ref st b0.sha256) x = refTotal st x :=
      fun x => rfl
    rw [hrteq]
    rcases List.mem_append.mp hb with h | h
    · have hbne := hB₁ b h
      have hbmem : b ∈ st.blobs := by
        rw [hB]
        exact List.mem_append_left _ h
      rw [List.count_cons_of_ne hbne]
      exact hrc b hbmem
    · rcases List.mem_cons.mp h with rfl | h
      · show b0.ref_count + 1 = refTotal st b0.sha256 +
          List.count b0.sha256 (b0.sha256 :: pr)
        rw [List.count_cons_self]
        have := hrc b0 hb0mem
        omega
      · have hbne := hB₂ b h
        have hbmem : b ∈ st.blobs := by
          rw [hB]
          exact List.mem_append_right _ (List.mem_cons_of_mem _ h)
        rw [List.count_cons_of_ne hbne]
        exact hrc b hbmem
  · intro p hpmem e he
    obtain ⟨b, hbmem, hbsha⟩ := hlive p hpmem e he
    rw [exists_sha_iff]
    rw [show (blob_ref st b0.sha256).blobs.map (fun b => b.sha256) =
      st.blobs.map (fun b => b.sha256) from hkeys, ← hbsha]
    exact List.mem_map_of_mem _ hbmem
  · intro x hx
    rcases List.mem_cons.mp hx with rfl | hx
    · rw [exists_sha_iff, hkeys]
      exact List.mem_map_of_mem _ hb0mem
    · obtain ⟨b, hbmem, hbsha⟩ := hprl x hx
      rw [exists_sha_iff, hkeys, ← hbsha]
      exact List.mem_map_of_mem _ hbmem
  · intro x hx
    have h1 := hpac x hx
    rw [List.count_cons]
    omega
  · show st.real_blob_size = _
    rw [realTotal_proj st (blob_ref st b0.sha256) hproj]
    exact hreal
  · show st.apparent_blob_size = _
    rw [apparentTotal_peers st (blob_ref st b0.sha256) st.peers rfl hbl]
    rw [show apparentTotal st = (st.peers.map (fun p => peerEntriesLen st p)).sum
      from rfl] at happ
    have hps : (pa.map (fun s => blob_len (blob_ref st b0.sha256) s)).sum =
        (pa.map (fun s => blob_len st s)).sum :=
      congrArg List.sum (List.map_congr_left (fun s _ => hbl s))
    rw [hps]
    exact happ

theorem invAux_new_miss (st : DaemonState) (sha : String) (L : Nat)
    (pr pa : List String)
    (hinv : InvAux st pr pa) (hmiss : ∀ b ∈ st.blobs, b.sha256 ≠ sha) :
    InvAux (blob_new st L sha) (sha :: pr) pa := by
  obtain ⟨hbk, hpk, hhk, hpos, hrc, hlive, hprl, hpac, hreal, happ⟩ := hinv
  have hent : ∀ p ∈ st.peers, ∀ e ∈ p.blobs, e.2 ≠ sha := by
    intro p hpmem e he heq
    obtain ⟨b, hbmem, hbsha⟩ := hlive p hpmem e he
    exact hmiss b hbmem (hbsha.trans heq)
  have hrt0 : refTotal st sha = 0 := by
    unfold refTotal
    apply List.sum_eq_zero
    intro x hx
    obtain ⟨p, hpmem, rfl⟩ := List.mem_map.mp hx
    rw [List.countP_eq_zero]
    intro e he
    simp only [beq_iff_eq]
    exact hent p hpmem e he
  have hprc : pr.count sha = 0 := by
    rw [List.count_eq_zero]
    intro hmem
    obtain ⟨b, hbmem, hbsha⟩ := hprl sha hmem
    exact hmiss b hbmem hbsha
  have hblnew : ∀ x, x ≠ sha → blob_len (blob_new st L sha) x = blob_len st x := by
    intro x hx
    unfold blob_len blob_new
    simp only
    rw [List.find?_cons_of_neg _ (by simp; exact fun h => hx h.symm)]
  refine ⟨?_, hpk, hhk, ?_, ?_, ?_, ?_, ?_, ?_, ?_⟩
  · show (((⟨sha, L, 1⟩ : Blob) :: st.blobs).map (fun b => b.sha256)).Nodup
    simp only [List.map_cons, List.nodup_cons]
    constructor
    · intro hmem
      obtain ⟨b, hbmem, hbsha⟩ := List.mem_map.mp hmem
      exact hmiss b hbmem hbsha
    · exact hbk
  · intro b hb
    rcases List.mem_cons.mp hb with rfl | hb
    · simp
    · exact hpos b hb
  · intro b hb
    have hrteq : ∀ x, refTotal (blob_new st L sha) x = refTotal st x :=
      fun x => rfl
    rw [hrteq]
    rcases List.mem_cons.mp hb with rfl | hb
    · show 1 = refTotal st sha + List.count sha (sha :: pr)
      rw [List.count_cons_self]
      omega
    · have hbne := hmiss b hb
      rw [List.count_cons_of_ne hbne]
      exact hrc b hb
  · intro p hpmem e he
    obtain ⟨b, hbmem, hbsha⟩ := hlive p hpmem e he
    exact ⟨b, List.mem_cons_of_mem _ hbmem, hbsha⟩
  · intro x hx
    rcases List.mem_cons.mp hx with rfl | hx
    · exact ⟨⟨x, L, 1⟩, List.mem_cons_self _ _, rfl⟩
    · obtain ⟨b, hbmem, hbsha⟩ := hprl x hx
      exact ⟨b, List.mem_cons_of_mem _ hbmem, hbsha⟩
  · intro x hx
    have h1 := hpac x hx
    rw [List.count_cons]
    omega
  · show st.real_blob_size + L =
      (((⟨sha, L, 1⟩ : Blob) :: st.blobs).map (fun b => b.len)).sum
    simp only [List.map_cons, List.sum_cons]
    unfold realTotal at hreal
    omega
  · show st.apparent_blob_size = _
    have hat : apparentTotal (blob_new st L sha) = apparentTotal st := by
      unfold apparentTotal
      apply congrArg List.sum
      apply List.map_congr_left
      intro p hpmem
      unfold peerEntriesLen
      apply congrArg List.sum
      apply List.map_congr_left
      intro e he
      exact hblnew e.2 (hent p hpmem e he)
    rw [hat]
    have hps : (pa.map (fun s => blob_len (blob_new st L sha) s)).sum =
        (pa.map (fun s => blob_len st s)).sum := by
      apply congrArg List.sum
      apply List.map_congr_left
      intro x hx
      refine hblnew x ?_
      intro heq
      subst heq
      have hxpos := List.count_pos_iff.mpr hx
      have := hpac x hx
      have : x ∈ pr := List.count_pos_iff.mp (by omega)
      obtain ⟨b, hbmem, hbsha⟩ := hprl x this
      exact hmiss b hbmem hbsha
    rw [hps]
    exact happ

theorem invAux_drop_peer (st : DaemonState) (P₁ P₂ : List Peer) (p0 : Peer)
    (pr pa : List String)
    (hinv : InvAux st pr pa) (hp : st.peers = P₁ ++ p0 :: P₂) :
    InvAux { st with peers := P₁ ++ P₂ }
      (p0.blobs.map (fun e => e.2) ++ pr) (p0.blobs.map (fun e => e.2) ++ pa) := by
  obtain ⟨hbk, hpk, hhk, hpos, hrc, hlive, hprl, hpac, hreal, happ⟩ := hinv
  have hp0mem : p0 ∈ st.peers := by
    rw [hp]
    exact List.mem_append_right _ (List.mem_cons_self _ _)
  have hmemP : ∀ p, p ∈ P₁ ++ P₂ → p ∈ st.peers := by
    intro p hpm
    rw [hp]
    rcases List.mem_append.mp hpm with h | h
    · exact List.mem_append_left _ h
    · exact List.mem_append_right _ (List.mem_cons_of_mem _ h)
  have hcount : ∀ x, p0.blobs.countP (fun e => e.2 == x) =
      (p0.blobs.map (fun e => e.2)).count x := by
    intro x
    rw [List.count, List.countP_map]
    rfl
  refine ⟨hbk, ?_, ?_, hpos, ?_, ?_, ?_, ?_, hreal, ?_⟩
  · have hsub : List.Sublist (P₁ ++ P₂) (P₁ ++ p0 :: P₂) :=
      List.Sublist.append (List.Sublist.refl P₁) (List.sublist_cons_self p0 P₂)
    rw [hp] at hpk
    exact List.Nodup.sublist (List.Sublist.map _ hsub) hpk
  · intro p hpm
    exact hhk p (hmemP p hpm)
  · intro b hb
    have h1 := hrc b hb
    have h2 : refTotal st b.sha256 =
        refTotal { st with peers := P₁ ++ P₂ } b.sha256 +
          p0.blobs.countP (fun e => e.2 == b.sha256) := by
      unfold refTotal
      rw [hp]
      simp only [List.map_append, List.map_cons, List.sum_append, List.sum_cons]
      omega
    rw [List.count_append, ← hcount b.sha256]
    omega
  · intro p hpm e he
    exact hlive p (hmemP p hpm) e he
  · intro x hx
    rcases List.mem_append.mp hx with h | h
    · obtain ⟨e, he, rfl⟩ := List.mem_map.mp h
      exact hlive p0 hp0mem e he
    · exact hprl x h
  · intro x hx
    rw [List.count_append, List.count_append]
    by_cases hxpa : x ∈ pa
    · have := hpac x hxpa
      omega
    · have : pa.count x = 0 := by
        rw [List.count_eq_zero]
        exact hxpa
      omega
  · show st.apparent_blob_size = _
    have h2 := apparentTotal_peers st { st with peers := P₁ ++ P₂ } (P₁ ++ P₂)
      rfl (fun k => rfl)
    have h1 := apparentTotal_peers st st (P₁ ++ p0 :: P₂) hp (fun k => rfl)
    have hpel0 : peerEntriesLen st p0 =
        ((p0.blobs.map (fun e => e.2)).map (fun s => blob_len st s)).sum := by
      unfold peerEntriesLen
      rw [List.map_map]
      rfl
    have hblst : ∀ k, blob_len { st with peers := P₁ ++ P₂ } k = blob_len st k :=
      fun k => rfl
    simp only [List.map_append, List.map_cons, List.sum_append, List.sum_cons]
      at h1 h2
    simp only [List.map_append, List.sum_append, hblst]
    rw [h2]
    rw [h1, hpel0] at happ
    omega

theorem invAux_foldcb (l : List (Nat × String)) (st : DaemonState)
    (pr pa : List String)
    (hinv : InvAux st (l.map (fun e => e.2) ++ pr) (l.map (fun e => e.2) ++ pa)) :
    InvAux (l.foldl (fun s e => removed_blob_from_peer_cb s e.2) st) pr pa := by
  induction l generalizing st with
  | nil => simpa using hinv
  | cons e t ih =>
    simp only [List.foldl_cons]
    apply ih
    apply invAux_cb
    simpa using hinv

/-! ## Invariant preservation for the method handlers -/

theorem inv_make_unique (st : DaemonState) (sender : String) (parameters : Params)
    (fd_list : List Memfd) (hinv : Inv st) :
    Inv (make_unique st sender parameters fd_list).1 := by
  cases parameters with
  | u v => exact hinv
  | other => exact hinv
  | h idx =>
    cases hfd : fd_list[idx]? with
    | none =>
      simp only [make_unique, steal_one_fd_from_list, hfd]
      exact hinv
    | some fd =>
      by_cases hs : ((fd.seals &&& ALL_SEALS) != ALL_SEALS) = true
      · simp only [make_unique, steal_one_fd_from_list, hfd, if_pos hs]
        exact hinv
      · by_cases hr : (!fd.readable) = true
        · simp only [make_unique, steal_one_fd_from_list, hfd, if_neg hs, if_pos hr]
          exact hinv
        · by_cases hhit : ∃ b ∈ st.blobs, b.sha256 = sha256hex fd.content
          · obtain ⟨b0, hb0mem, hb0sha⟩ := hhit
            have hlk := lookup_blob_hit st (sha256hex fd.content) b0 hb0mem hb0sha
            simp only [make_unique, steal_one_fd_from_list, hfd, if_neg hs,
              if_neg hr, hlk, if_pos]
            have h1 : InvAux (blob_ref st (sha256hex fd.content))
                (sha256hex fd.content :: []) [] :=
              invAux_ref_hit st (sha256hex fd.content) [] [] hinv
                ⟨b0, hb0mem, hb0sha⟩
            have hsha2 : ∃ b ∈ (blob_ref st (sha256hex fd.content)).blobs,
                b.sha256 = sha256hex fd.content := by
              rw [exists_sha_iff,
                keys_eq_of_proj _ _ (blob_ref_proj st (sha256hex fd.content)),
                ← hb0sha]
              exact List.mem_map_of_mem _ hb0mem
            have h2 := invAux_add (blob_ref st (sha256hex fd.content)) sender
              (sha256hex fd.content) (sha256hex fd.content :: []) [] h1 hsha2
            exact invAux_unref _ _ [] [] h2 (Nat.le_refl _)
          · have hmiss : ∀ b ∈ st.blobs, b.sha256 ≠ sha256hex fd.content := by
              intro b hb heq
              exact hhit ⟨b, hb, heq⟩
            have hlk := lookup_blob_miss st (sha256hex fd.content) hmiss
            simp only [make_unique, steal_one_fd_from_list, hfd, if_neg hs,
              if_neg hr, hlk, if_neg, Bool.false_eq_true, if_false]
            have h1 : InvAux (blob_new st fd.content.length (sha256hex fd.content))
                (sha256hex fd.content :: []) [] :=
              invAux_new_miss st (sha256hex fd.content) fd.content.length [] []
                hinv hmiss
            have hsha2 : ∃ b ∈ (blob_new st fd.content.length
                (sha256hex fd.content)).blobs, b.sha256 = sha256hex fd.content :=
              ⟨⟨sha256hex fd.content, fd.content.length, 1⟩,
                List.mem_cons_self _ _, rfl⟩
            have h2 := invAux_add (blob_new st fd.content.length
              (sha256hex fd.content)) sender (sha256hex fd.content)
              (sha256hex fd.content :: []) [] h1 hsha2
            exact invAux_unref _ _ [] [] h2 (Nat.le_refl _)

theorem inv_forget (st : DaemonState) (sender : String) (parameters : Params)
    (hinv : Inv st) : Inv (forget st sender parameters).1 := by
  cases parameters with
  | h idx => exact hinv
  | other => exact hinv
  | u blob_id =>
    show Inv (remove_blob_from_peer st sender blob_id)
    rw [remove_blob_from_peer]
    by_cases hany : st.peers.any (fun p => p.name == sender) = true
    · obtain ⟨p0, hp0mem, hp0n⟩ : ∃ p ∈ st.peers, p.name = sender := by
        rw [List.any_eq_true] at hany
        obtain ⟨p, hpmem, hpn⟩ := hany
        exact ⟨p, hpmem, by simpa using hpn⟩
      have hlk : lookup_peer st sender = st :=
        lookup_peer_known st sender p0 hp0mem hp0n
      rw [hlk]
      have hfind : st.peers.find? (fun p => p.name == sender) = some p0 :=
        find?_eq_of_mem_keys (fun p => p.name) hinv.2.1 hp0mem hp0n
      cases hoe : p0.blobs.find? (fun e => e.1 == blob_id) with
      | none =>
        simp only [hfind, hoe]
        exact hinv
      | some e0 =>
        have he0mem := List.mem_of_find?_eq_some hoe
        have he0key : e0.1 = blob_id := by simpa using List.find?_some hoe
        obtain ⟨E₁, E₂, hE, hE₁, hE₂⟩ :=
          split_of_mem_keys (fun e => e.1) (hinv.2.2.1 p0 hp0mem) he0mem
        rw [he0key] at hE₁ hE₂
        obtain ⟨P₁, P₂, hp, hn₁, hn₂⟩ :=
          split_of_mem_keys (fun p => p.name) hinv.2.1 hp0mem
        rw [hp0n] at hn₁ hn₂
        have hfil : p0.blobs.filter (fun e => e.1 != blob_id) = E₁ ++ E₂ := by
          rw [hE]
          exact filter_keys_split (fun e => e.1) blob_id E₁ E₂ e0 hE₁ hE₂ he0key
        have hmap : st.peers.map (fun p =>
            if p.name == sender then
              { p with blobs := p.blobs.filter (fun x => x.1 != blob_id) }
            else p) =
            P₁ ++ { p0 with blobs := E₁ ++ E₂ } :: P₂ := by
          rw [hp]
          rw [map_update_keys_split (fun p => p.name) sender (fun p =>
            { p with blobs := p.blobs.filter (fun x => x.1 != blob_id) })
            P₁ P₂ p0 hn₁ hn₂ hp0n]
          rw [hfil]
        simp only [hfind, hoe, hmap]
        apply invAux_cb
        exact invAux_remove_entry st P₁ P₂ p0 E₁ E₂ e0 [] [] hinv hp hE
    · have hn : ∀ p ∈ st.peers, p.name ≠ sender := by
        intro p hpmem hpn
        rw [List.any_eq_true] at hany
        exact hany ⟨p, hpmem, by simp [hpn]⟩
      rw [lookup_peer_new st sender hn]
      have hfind : ((⟨sender, 1, []⟩ : Peer) :: st.peers).find?
          (fun p => p.name == sender) = some ⟨sender, 1, []⟩ :=
        List.find?_cons_of_pos _ (by simp)
      rw [show ({ st with peers := ⟨sender, 1, []⟩ :: st.peers } :
        DaemonState).peers = ⟨sender, 1, []⟩ :: st.peers from rfl, hfind]
      show Inv { st with peers := ⟨sender, 1, []⟩ :: st.peers }
      have := invAux_lookup_peer st sender [] [] hinv
      rw [lookup_peer_new st sender hn] at this
      exact this

theorem inv_name_owner_changed (st : DaemonState) (name from_ to_ : String)
    (hinv : Inv st) : Inv (name_owner_changed st name from_ to_) := by
  rw [name_owner_changed]
  by_cases hc : (name.data.head? == some ':' && name == from_ && to_ == "") = true
  · rw [if_pos hc]
    cases hf : st.peers.find? (fun p => p.name == name) with
    | none => exact hinv
    | some peer =>
      have hpmem := List.mem_of_find?_eq_some hf
      have hpname : peer.name = name := by simpa using List.find?_some hf
      obtain ⟨P₁, P₂, hp, h₁, h₂⟩ :=
        split_of_mem_keys (fun p => p.name) hinv.2.1 hpmem
      rw [hpname] at h₁ h₂
      have hfil : st.peers.filter (fun p => p.name != name) = P₁ ++ P₂ := by
        rw [hp]
        exact filter_keys_split (fun p => p.name) name P₁ P₂ peer h₁ h₂ hpname
      rw [hfil]
      have hdrop := invAux_drop_peer st P₁ P₂ peer [] [] hinv hp
      exact invAux_foldcb peer.blobs _ [] [] hdrop
  · rw [if_neg hc]
    exact hinv

theorem inv_method_call (st : DaemonState) (sender interface_name method_name : String)
    (parameters : Params) (fd_list : List Memfd) (hinv : Inv st) :
    Inv (method_call st sender interface_name method_name parameters fd_list).1 := by
  rw [method_call]
  by_cases h1 : (method_name == "MakeUnique") = true
  · rw [if_pos h1]
    exact inv_make_unique st sender parameters fd_list hinv
  · rw [if_neg h1]
    by_cases h2 : (method_name == "Forget") = true
    · rw [if_pos h2]
      exact inv_forget st sender parameters hinv
    · rw [if_neg h2]
      exact hinv

theorem inv_stepOp (st : DaemonState) (op : Op) (hinv : Inv st) :
    Inv (stepOp st op) := by
  cases op with
  | call s i m p fds => exact inv_method_call st s i m p fds hinv
  | ownerChanged n f t => exact inv_name_owner_changed st n f t hinv

theorem inv_run_from (ops : List Op) : ∀ st : DaemonState, Inv st →
    Inv (run st ops) := by
  induction ops with
  | nil => exact fun st hinv => hinv
  | cons op t ih =>
    intro st hinv
    exact ih (stepOp st op) (inv_stepOp st op hinv)

theorem Inv_initState : Inv initState := by decide

theorem inv_run (ops : List Op) : Inv (run initState ops) :=
  inv_run_from ops initState Inv_initState

theorem peer_pel_regroup (st : DaemonState) (entries : List (Nat × String))
    (hbk : (st.blobs.map (fun b => b.sha256)).Nodup)
    (hlv : ∀ e ∈ entries, ∃ b ∈ st.blobs, b.sha256 = e.2) :
    (entries.map (fun e => blob_len st e.2)).sum =
      (st.blobs.map (fun b =>
        entries.countP (fun e => e.2 == b.sha256) * b.len)).sum := by
  induction entries with
  | nil =>
    simp only [List.map_nil, List.sum_nil, List.countP_nil, Nat.zero_mul]
    symm
    apply List.sum_eq_zero
    intro x hx
    obtain ⟨b, _, rfl⟩ := List.mem_map.mp hx
    rfl
  | cons e t ih =>
    simp only [List.map_cons, List.sum_cons, List.countP_cons]
    rw [ih (fun x hx => hlv x (List.mem_cons_of_mem _ hx))]
    have hdist : (st.blobs.map (fun b =>
        (t.countP (fun x => x.2 == b.sha256) +
          if e.2 == b.sha256 then 1 else 0) * b.len)).sum =
        (st.blobs.map (fun b =>
          t.countP (fun x => x.2 == b.sha256) * b.len)).sum +
        (st.blobs.map (fun b =>
          (if e.2 == b.sha256 then 1 else 0) * b.len)).sum := by
      rw [← sum_map_add]
      apply congrArg List.sum
      apply List.map_congr_left
      intro b _
      ring
    rw [hdist]
    obtain ⟨b1, hb1, hb1sha⟩ := hlv e (List.mem_cons_self _ _)
    obtain ⟨B₁, B₂, hB, h₁, h₂⟩ :=
      split_of_mem_keys (fun b => b.sha256) hbk hb1
    have hsingle : (st.blobs.map (fun b =>
        (if e.2 == b.sha256 then 1 else 0) * b.len)).sum = blob_len st e.2 := by
      have hfind : st.blobs.find? (fun b => b.sha256 == e.2) = some b1 :=
        find?_eq_of_mem_keys (fun b => b.sha256) hbk hb1 hb1sha
      have hbl : blob_len st e.2 = b1.len := by
        unfold blob_len
        rw [hfind]
      rw [hB, hbl]
      rw [sum_map_single B₁ B₂ b1 _ ?_ ?_]
      · rw [if_pos (by simp [hb1sha])]
        omega
      · intro x hx
        rw [if_neg ?_]
        · omega
        · simp only [beq_iff_eq]
          intro heq
          exact h₁ x hx (by rw [← heq, hb1sha])
      · intro x hx
        rw [if_neg ?_]
        · omega
        · simp only [beq_iff_eq]
          intro heq
          exact h₂ x hx (by rw [← heq, hb1sha])
    rw [hsingle]
    omega

theorem real_le_apparent (st : DaemonState) (hinv : Inv st) :
    realTotal st ≤ apparentTotal st := by
  obtain ⟨hbk, hpk, hhk, hpos, hrc, hlive, hprl, hpac, hreal, happ⟩ := hinv
  have h1 : apparentTotal st =
      (st.blobs.map (fun b => refTotal st b.sha256 * b.len)).sum := by
    unfold apparentTotal
    have hper : ∀ p ∈ st.peers, peerEntriesLen st p =
        (st.blobs.map (fun b =>
          p.blobs.countP (fun e => e.2 == b.sha256) * b.len)).sum :=
      fun p hp => peer_pel_regroup st p.blobs hbk (hlive p hp)
    rw [List.map_congr_left hper, sum_map_swap]
    apply congrArg List.sum
    apply List.map_congr_left
    intro b _
    rw [sum_map_mul_const]
    rfl
  rw [h1]
  unfold realTotal
  apply List.sum_le_sum
  intro b hb
  have hrcb := hrc b hb
  simp only [List.count_nil, Nat.add_zero] at hrcb
  have hposb := hpos b hb
  calc b.len = 1 * b.len := by omega
  _ ≤ refTotal st b.sha256 * b.len := by
      apply Nat.mul_le_mul_right
      omega

/-! ## Claim C1: synchronous client submission -/

/-- C1: the claim states that call_make_unique returns true whenever the
MakeUnique IPC call succeeds, so that g_bytes_new_unique_sync maps the
returned fd. The code contradicts this: a stray return FALSE statement after
the success branch (unique-bytes.c line 194) executes on every path, so
call_make_unique returns false even on a successful reply and the sync
constructor always degrades to the plain heap copy. This theorem evaluates
the model: at a fully successful environment the returned flag is false, the
flag is false in every environment, and the sync constructor always returns
the fallback copy. -/
theorem C1_call_make_unique_always_false :
    call_make_unique ⟨true, true, some ⟨[], [], 1⟩⟩ 3 =
      ⟨false, 3, some 1⟩ ∧
    (∀ env : ClientCallEnv, ∀ memfd : Nat,
      (call_make_unique env memfd).ret = false) ∧
    g_bytes_new_unique_sync ⟨⟨true, true, some ⟨[], [], 1⟩⟩, true, true⟩ 3 =
      .heapCopy := by
  refine ⟨by decide, ?_, by decide⟩
  intro env memfd
  obtain ⟨busOk, appendOk, response⟩ := env
  cases busOk
  · rfl
  · cases appendOk
    · rfl
    · cases response <;> rfl

/-! ## Claim C5: MakeUnique error conditions -/

/-- C5: make_unique fails with an invalid-args error exactly when the payload
signature is not (h), or no fd sits at the given index of the attached list,
or one of the four required seals is missing, or reading the fd fails; and
every such failed call leaves the daemon state unchanged. -/
theorem C5_make_unique_invalid_args (st : DaemonState) (sender : String)
    (parameters : Params) (fd_list : List Memfd) :
    ((∃ msg, (make_unique st sender parameters fd_list).2 = .err .invalidArgs msg) ↔
      makeUniqueBadArgs parameters fd_list = true) ∧
    (makeUniqueBadArgs parameters fd_list = true →
      (make_unique st sender parameters fd_list).1 = st) := by
  cases parameters with
  | u v => simp [make_unique, makeUniqueBadArgs]
  | other => simp [make_unique, makeUniqueBadArgs]
  | h idx =>
    cases hfd : fd_list[idx]? with
    | none => simp [make_unique, makeUniqueBadArgs, steal_one_fd_from_list, hfd]
    | some fd =>
      by_cases hs : (fd.seals &&& ALL_SEALS) = ALL_SEALS
      · by_cases hr : fd.readable = true
        · have hok : makeUniqueBadArgs (.h idx) fd_list = false := by
            simp [makeUniqueBadArgs, hfd, hs, hr]
          rw [hok]
          simp only [Bool.false_eq_true, iff_false, false_implies, and_true]
          intro ⟨msg, hmsg⟩
          rw [make_unique] at hmsg
          simp only [steal_one_fd_from_list, hfd] at hmsg
          rw [if_neg (by simp [hs]), if_neg (by simp [hr])] at hmsg
          cases hlk : (lookup_blob st (sha256hex fd.content)).2 <;>
            simp [hlk] at hmsg
        · have hbad : makeUniqueBadArgs (.h idx) fd_list = true := by
            simp [makeUniqueBadArgs, hfd]
            right
            simpa using hr
          rw [hbad]
          constructor
          · simp only [iff_true]
            refine ⟨"Cant read data", ?_⟩
            rw [make_unique]
            simp only [steal_one_fd_from_list, hfd]
            rw [if_neg (by simp [hs]), if_pos (by simpa using hr)]
          · intro _
            rw [make_unique]
            simp only [steal_one_fd_from_list, hfd]
            rw [if_neg (by simp [hs]), if_pos (by simpa using hr)]
      · have hbad : makeUniqueBadArgs (.h idx) fd_list = true := by
          simp [makeUniqueBadArgs, hfd]
          left
          simpa using hs
        rw [hbad]
        constructor
        · simp only [iff_true]
          refine ⟨"Fd not sealed", ?_⟩
          rw [make_unique]
          simp only [steal_one_fd_from_list, hfd]
          rw [if_pos (by simpa using hs)]
        · intro _
          rw [make_unique]
          simp only [steal_one_fd_from_list, hfd]
          rw [if_pos (by simpa using hs)]

/-- C5 witness: a wrongly typed payload is rejected with the state intact. -/
theorem C5_make_unique_invalid_args_witness :
    (make_unique initState ":1.9" .other []).1 = initState :=
  (C5_make_unique_invalid_args initState ":1.9" .other []).2 (by decide)

/-! ## Claim C6: Forget of an unknown handle -/

/-- C6 counterexample: the claim says a Forget whose handle is unknown leaves
the daemon state unchanged even for a sender the daemon has never seen; but
remove_blob_from_peer calls lookup_peer, which creates an empty peer record
for an unknown sender, so the peer table does change. -/
theorem C6_counterexample :
    (method_call initState ":1.9" "org.freedesktop.portal.Unique" "Forget"
      (.u 1) []).1 ≠ initState := by decide

/-- C6 amended: a Forget whose handle has no entry in the sender handle
table replies with the empty tuple and leaves the state unchanged except
that an empty peer record is created when the sender was unknown; in
particular for an already known sender the state is exactly unchanged. -/
theorem C6_forget_unknown_handle (st : DaemonState) (sender : String) (id : Nat)
    (h : handleUnknown st sender id) :
    forget st sender (.u id) = (lookup_peer st sender, .okForget) ∧
    (st.peers.any (fun p => p.name == sender) = true → lookup_peer st sender = st) := by
  constructor
  · rw [forget, remove_blob_from_peer]
    cases hf : (lookup_peer st sender).peers.find? (fun p => p.name == sender) with
    | none => simp
    | some peer =>
      have hmem := List.mem_of_find?_eq_some hf
      have hname : peer.name = sender := by
        have := List.find?_some hf
        simpa using this
      have hentries : ∀ e ∈ peer.blobs, e.1 ≠ id := by
        rw [lookup_peer] at hmem
        by_cases hany : st.peers.any (fun p => p.name == sender) = true
        · rw [if_pos hany] at hmem
          exact h peer hmem hname
        · rw [if_neg hany] at hmem
          simp only at hmem
          rcases List.mem_cons.mp hmem with rfl | hmem
          · intro e he
            simp at he
          · exact h peer hmem hname
      have hnone : peer.blobs.find? (fun e => e.1 == id) = none := by
        rw [List.find?_eq_none]
        intro e he
        simp only [beq_iff_eq]
        exact hentries e he
      simp [hnone]
  · intro hany
    rw [lookup_peer, if_pos hany]

/-- C6 witness: Forget with handle 1 from an unknown sender on the fresh
daemon state. -/
theorem C6_forget_unknown_handle_witness :
    forget initState ":1.9" (.u 1) = (lookup_peer initState ":1.9", .okForget) :=
  (C6_forget_unknown_handle initState ":1.9" 1 (by decide)).1

/-! ## Claim C9: asynchronous client remap -/

/-- C9: in the asynchronous reply handler, when the reply carries a
canonical fd the handler remaps it (read-only, private, fixed) at the
original virtual address and aborts whenever the kernel returns any other
address; when the fds array of the reply is empty the existing mapping is
kept; in both completed cases the reply handle is recorded on the mapping
record, and a record carrying that handle sends Forget with it when its
last reference is dropped. -/
theorem C9_async_remap (d : MappedData) (resp : MUResponse) (mmapRet : Nat)
    (hrc : 1 < d.ref_count) :
    ((∃ h fd0, resp.ah.head? = some h ∧ resp.fdList[h]? = some fd0) →
      (mmapRet ≠ d.data → make_unique_cb d (some resp) mmapRet = .aborted) ∧
      (mmapRet = d.data → make_unique_cb d (some resp) mmapRet =
        .done (some ⟨d.ref_count - 1, d.data, d.len, resp.id⟩) none)) ∧
    (resp.ah = [] → make_unique_cb d (some resp) mmapRet =
      .done (some ⟨d.ref_count - 1, d.data, d.len, resp.id⟩) none) ∧
    mapped_data_unref ⟨1, d.data, d.len, resp.id⟩ =
      (none, if resp.id != 0 then some resp.id else none) := by
  have hunref : mapped_data_unref { d with id := resp.id } =
      (some ⟨d.ref_count - 1, d.data, d.len, resp.id⟩, none) := by
    rw [mapped_data_unref]
    simp only
    rw [if_neg (by omega)]
  refine ⟨?_, ?_, ?_⟩
  · rintro ⟨h, fd0, hh, hfd⟩
    constructor
    · intro hne
      rw [make_unique_cb]
      simp only [hh, client_steal_one_fd_from_list, hfd]
      rw [if_pos (by simpa using hne)]
    · intro heq
      rw [make_unique_cb]
      simp only [hh, client_steal_one_fd_from_list, hfd]
      rw [if_neg (by simp [heq]), hunref]
  · intro hempty
    rw [make_unique_cb]
    simp only [hempty, List.head?_nil, hunref]
  · simp [mapped_data_unref]

/-- C9 witness: a hit reply with one canonical fd, remapped at the original
address, and the record then sending Forget for handle 5 on destruction. -/
theorem C9_async_remap_witness :
    (1 : Nat) < 2 ∧
    make_unique_cb ⟨2, 4096, 10, 0⟩ (some ⟨[0], [77], 5⟩) 4096 =
      .done (some ⟨1, 4096, 10, 5⟩) none ∧
    mapped_data_unref ⟨1, 4096, 10, 5⟩ = (none, some 5) := by
  have h := C9_async_remap ⟨2, 4096, 10, 0⟩ ⟨[0], [77], 5⟩ 4096 (by decide)
  refine ⟨by decide, ?_, ?_⟩
  · exact (h.1 ⟨0, 77, by decide, by decide⟩).2 rfl
  · have := h.2.2
    simpa using this

/-! ## Claim C10: unknown method dispatch -/

/-- C10: a method invocation whose name is neither MakeUnique nor Forget is
answered with an unknown-method error and the daemon state is unchanged. -/
theorem C10_unknown_method (st : DaemonState) (sender interface_name method_name : String)
    (parameters : Params) (fd_list : List Memfd)
    (h1 : method_name ≠ "MakeUnique") (h2 : method_name ≠ "Forget") :
    method_call st sender interface_name method_name parameters fd_list =
      (st, .err .unknownMethod ("Method " ++ method_name ++
        " is not implemented on interface " ++ interface_name)) := by
  rw [method_call, if_neg (by simpa using h1), if_neg (by simpa using h2)]

/-- C10 witness: an Introspect call on the fresh daemon state. -/
theorem C10_unknown_method_witness :
    method_call initState ":1.1" "org.freedesktop.portal.Unique" "Introspect"
      .other [] =
      (initState, .err .unknownMethod ("Method " ++ "Introspect" ++
        " is not implemented on interface " ++ "org.freedesktop.portal.Unique")) :=
  C10_unknown_method initState ":1.1" "org.freedesktop.portal.Unique" "Introspect"
    .other [] (by decide) (by decide)

/-! ## Frame lemmas for the destroy-notify fold -/

theorem cb_peers (st : DaemonState) (s : String) :
    (removed_blob_from_peer_cb st s).peers = st.peers := by
  unfold removed_blob_from_peer_cb blob_unref
  cases hf : ({ st with apparent_blob_size :=
      st.apparent_blob_size - blob_len st s } : DaemonState).blobs.find?
      (fun b => b.sha256 == s) with
  | none => rfl
  | some b =>
    by_cases hz : b.ref_count - 1 = 0
    · simp only [hf, if_pos hz]
    · simp only [hf, if_neg hz]

theorem fold_cb_peers (l : List (Nat × String)) (st : DaemonState) :
    (l.foldl (fun s e => removed_blob_from_peer_cb s e.2) st).peers =
      st.peers := by
  induction l generalizing st with
  | nil => rfl
  | cons e t ih =>
    simp only [List.foldl_cons]
    rw [ih, cb_peers]

theorem cb_lenBack (st : DaemonState) (s : String) :
    ∀ b' ∈ (removed_blob_from_peer_cb st s).blobs,
      ∃ b ∈ st.blobs, b'.sha256 = b.sha256 ∧ b'.len = b.len := by
  intro b' hb'
  unfold removed_blob_from_peer_cb blob_unref at hb'
  revert hb'
  cases hf : ({ st with apparent_blob_size :=
      st.apparent_blob_size - blob_len st s } : DaemonState).blobs.find?
      (fun b => b.sha256 == s) with
  | none =>
    intro hb'
    exact ⟨b', hb', rfl, rfl⟩
  | some b =>
    by_cases hz : b.ref_count - 1 = 0
    · simp only [hf, if_pos hz]
      intro hb'
      exact ⟨b', List.mem_of_mem_filter hb', rfl, rfl⟩
    · simp only [hf, if_neg hz]
      intro hb'
      obtain ⟨b0, hb0, rfl⟩ := List.mem_map.mp hb'
      by_cases heq : b0.sha256 = s
      · refine ⟨b0, hb0, ?_⟩
        rw [if_pos (by simp [heq])]
        exact ⟨rfl, rfl⟩
      · refine ⟨b0, hb0, ?_⟩
        rw [if_neg (by simp [heq])]
        exact ⟨rfl, rfl⟩

theorem fold_cb_lenBack (l : List (Nat × String)) (st : DaemonState) :
    ∀ b' ∈ (l.foldl (fun s e => removed_blob_from_peer_cb s e.2) st).blobs,
      ∃ b ∈ st.blobs, b'.sha256 = b.sha256 ∧ b'.len = b.len := by
  induction l generalizing st with
  | nil => exact fun b' hb' => ⟨b', hb', rfl, rfl⟩
  | cons e t ih =>
    intro b' hb'
    simp only [List.foldl_cons] at hb'
    obtain ⟨b1, hb1, hsha1, hlen1⟩ := ih (removed_blob_from_peer_cb st e.2) b' hb'
    obtain ⟨b, hb, hsha, hlen⟩ := cb_lenBack st e.2 b1 hb1
    exact ⟨b, hb, hsha1.trans hsha, hlen1.trans hlen⟩

theorem blob_len_of_lenBack (st st' : DaemonState)
    (hbk : (st.blobs.map (fun b => b.sha256)).Nodup)
    (hbk' : (st'.blobs.map (fun b => b.sha256)).Nodup)
    (hlb : ∀ b' ∈ st'.blobs, ∃ b ∈ st.blobs, b'.sha256 = b.sha256 ∧ b'.len = b.len)
    (x : String) (hx : ∃ b' ∈ st'.blobs, b'.sha256 = x) :
    blob_len st' x = blob_len st x := by
  obtain ⟨b', hb', hb'sha⟩ := hx
  obtain ⟨b, hb, hsha, hlen⟩ := hlb b' hb'
  have hf' : st'.blobs.find? (fun y => y.sha256 == x) = some b' :=
    find?_eq_of_mem_keys (fun y => y.sha256) hbk' hb' hb'sha
  have hf : st.blobs.find? (fun y => y.sha256 == x) = some b :=
    find?_eq_of_mem_keys (fun y => y.sha256) hbk hb
      (show b.sha256 = x by rw [← hsha, hb'sha])
  unfold blob_len
  rw [hf, hf']
  exact hlen

/-! ## Characterizations for the MakeUnique Forget round trip -/

theorem blob_len_find (st : DaemonState) (K : String) (B₁ B₂ : List Blob)
    (b : Blob) (hb : st.blobs = B₁ ++ b :: B₂)
    (h₁ : ∀ x ∈ B₁, x.sha256 ≠ K) (hbK : b.sha256 = K) :
    blob_len st K = b.len := by
  unfold blob_len
  rw [hb, find?_append_cons B₁ _ b (fun x hx => by simp [h₁ x hx]) (by simp [hbK])]

theorem cb_split_dec (st : DaemonState) (K : String) (B₁ B₂ : List Blob)
    (b0 : Blob) (hb : st.blobs = B₁ ++ b0 :: B₂) (hbK : b0.sha256 = K)
    (h₁ : ∀ x ∈ B₁, x.sha256 ≠ K) (h₂ : ∀ x ∈ B₂, x.sha256 ≠ K)
    (hrc : ¬ (b0.ref_count - 1 = 0)) :
    removed_blob_from_peer_cb st K =
      { st with apparent_blob_size := st.apparent_blob_size - b0.len,
                blobs := B₁ ++ { b0 with ref_count := b0.ref_count - 1 } :: B₂ } := by
  subst hbK
  rw [removed_blob_from_peer_cb, blob_len_find st b0.sha256 B₁ B₂ b0 hb h₁ rfl]
  exact blob_unref_split_dec
    { st with apparent_blob_size := st.apparent_blob_size - b0.len }
    B₁ B₂ b0 hb h₁ h₂ hrc

theorem cb_split_zero (st : DaemonState) (K : String) (B₁ B₂ : List Blob)
    (b0 : Blob) (hb : st.blobs = B₁ ++ b0 :: B₂) (hbK : b0.sha256 = K)
    (h₁ : ∀ x ∈ B₁, x.sha256 ≠ K) (h₂ : ∀ x ∈ B₂, x.sha256 ≠ K)
    (hrc : b0.ref_count - 1 = 0) :
    removed_blob_from_peer_cb st K =
      { st with apparent_blob_size := st.apparent_blob_size - b0.len,
                real_blob_size := st.real_blob_size - b0.len,
                blobs := B₁ ++ B₂ } := by
  subst hbK
  rw [removed_blob_from_peer_cb, blob_len_find st b0.sha256 B₁ B₂ b0 hb h₁ rfl]
  exact blob_unref_split_zero
    { st with apparent_blob_size := st.apparent_blob_size - b0.len }
    B₁ B₂ b0 hb h₁ h₂ hrc

theorem forget_known_entry (st₁ : DaemonState) (sender sha : String) (id0 : Nat)
    (Q₁ Q₂ : List Peer) (q0 : Peer) (E : List (Nat × String))
    (hq : st₁.peers = Q₁ ++ q0 :: Q₂) (hq0n : q0.name = sender)
    (hqn₁ : ∀ x ∈ Q₁, x.name ≠ sender) (hqn₂ : ∀ x ∈ Q₂, x.name ≠ sender)
    (hqb : q0.blobs = (id0, sha) :: E) (hE : ∀ e ∈ E, e.1 ≠ id0) :
    (forget st₁ sender (.u id0)).1 =
      removed_blob_from_peer_cb
        { st₁ with peers := Q₁ ++ { q0 with blobs := E } :: Q₂ } sha := by
  have hq0mem : q0 ∈ st₁.peers := by
    rw [hq]
    exact List.mem_append_right _ (List.mem_cons_self _ _)
  have hlk : lookup_peer st₁ sender = st₁ :=
    lookup_peer_known st₁ sender q0 hq0mem hq0n
  have hfind : st₁.peers.find? (fun p => p.name == sender) = some q0 := by
    rw [hq]
    exact find?_append_cons Q₁ _ q0 (fun x hx => by simp [hqn₁ x hx]) (by simp [hq0n])
  have hoe : q0.blobs.find? (fun e => e.1 == id0) = some (id0, sha) := by
    rw [hqb]
    exact List.find?_cons_of_pos _ (by simp)
  have hfil : q0.blobs.filter (fun x => x.1 != id0) = E := by
    rw [hqb, List.filter_cons, if_neg (by simp)]
    exact List.filter_eq_self.mpr (fun e he => by simp [hE e he])
  have hmap : st₁.peers.map (fun p =>
      if p.name == sender then
        { p with blobs := p.blobs.filter (fun x => x.1 != id0) }
      else p) = Q₁ ++ { q0 with blobs := E } :: Q₂ := by
    rw [hq]
    rw [map_update_keys_split (fun p => p.name) sender
      (fun p => { p with blobs := p.blobs.filter (fun x => x.1 != id0) })
      Q₁ Q₂ q0 hqn₁ hqn₂ hq0n]
    rw [hfil]
  show remove_blob_from_peer st₁ sender id0 = _
  simp only [remove_blob_from_peer, hlk, hfind, hoe]
  rw [hmap]

theorem roundtrip_core (stX : DaemonState) (sender K : String) (L rc : Nat)
    (B₁ B₂ : List Blob) (P₁ P₂ : List Peer) (p0 : Peer)
    (hbX : stX.blobs = B₁ ++ ⟨K, L, rc + 1⟩ :: B₂)
    (h₁ : ∀ x ∈ B₁, x.sha256 ≠ K) (h₂ : ∀ x ∈ B₂, x.sha256 ≠ K)
    (hP : stX.peers = P₁ ++ p0 :: P₂) (hp0n : p0.name = sender)
    (hn₁ : ∀ x ∈ P₁, x.name ≠ sender) (hn₂ : ∀ x ∈ P₂, x.name ≠ sender)
    (hid : ∀ e ∈ p0.blobs, e.1 ≠ p0.next_blob_id) :
    (forget (blob_unref (add_blob_to_peer stX sender K).1 K) sender
        (.u (add_blob_to_peer stX sender K).2)).1 =
      { stX with
        real_blob_size :=
          if rc = 0 then stX.real_blob_size - L else stX.real_blob_size,
        blobs := if rc = 0 then B₁ ++ B₂ else B₁ ++ ⟨K, L, rc⟩ :: B₂,
        peers :=
          P₁ ++ { p0 with next_blob_id := (p0.next_blob_id + 1) % 2 ^ 32 } :: P₂ } := by
  have h₁b : ∀ x ∈ B₁, x.sha256 ≠ (⟨K, L, rc + 1⟩ : Blob).sha256 := h₁
  have h₂b : ∀ x ∈ B₂, x.sha256 ≠ (⟨K, L, rc + 1⟩ : Blob).sha256 := h₂
  have hbl : blob_len stX K = L := blob_len_find stX K B₁ B₂ _ hbX h₁ rfl
  have hadd := add_char_nocol stX sender K p0 P₁ P₂ hP hp0n hn₁ hn₂ hid
  have href : (blob_ref stX K).blobs = B₁ ++ ⟨K, L, rc + 1 + 1⟩ :: B₂ :=
    blob_ref_split stX B₁ B₂ ⟨K, L, rc + 1⟩ hbX h₁b h₂b
  have hstA : (add_blob_to_peer stX sender K).1 =
      { stX with
        apparent_blob_size := stX.apparent_blob_size + L,
        blobs := B₁ ++ ⟨K, L, rc + 1 + 1⟩ :: B₂,
        peers := P₁ ++ { p0 with
          next_blob_id := (p0.next_blob_id + 1) % 2 ^ 32,
          blobs := (p0.next_blob_id, K) :: p0.blobs } :: P₂ } := by
    rw [hadd]
    simp only [hbl, href]
  have hid0 : (add_blob_to_peer stX sender K).2 = p0.next_blob_id := by
    rw [hadd]
  have hst1 : blob_unref (add_blob_to_peer stX sender K).1 K =
      { stX with
        apparent_blob_size := stX.apparent_blob_size + L,
        blobs := B₁ ++ ⟨K, L, rc + 1⟩ :: B₂,
        peers := P₁ ++ { p0 with
          next_blob_id := (p0.next_blob_id + 1) % 2 ^ 32,
          blobs := (p0.next_blob_id, K) :: p0.blobs } :: P₂ } := by
    rw [hstA]
    exact blob_unref_split_dec _ B₁ B₂ ⟨K, L, rc + 1 + 1⟩ rfl h₁b h₂b
      (show ¬ (rc + 1 + 1 - 1 = 0) by omega)
  have hforget := forget_known_entry
    (blob_unref (add_blob_to_peer stX sender K).1 K) sender K p0.next_blob_id
    P₁ P₂
    ({ p0 with next_blob_id := (p0.next_blob_id + 1) % 2 ^ 32,
               blobs := (p0.next_blob_id, K) :: p0.blobs })
    p0.blobs (by rw [hst1]) hp0n hn₁ hn₂ rfl hid
  rw [hid0, hforget, hst1]
  by_cases hrc0 : rc = 0
  · subst hrc0
    refine (cb_split_zero _ K B₁ B₂ ⟨K, L, 0 + 1⟩ rfl rfl h₁ h₂ rfl).trans ?_
    simp only [if_pos rfl]
    show DaemonState.mk (stX.real_blob_size - L)
        (stX.apparent_blob_size + L - L) (B₁ ++ B₂)
        (P₁ ++ { p0 with next_blob_id := (p0.next_blob_id + 1) % 2 ^ 32 } :: P₂) =
      DaemonState.mk (stX.real_blob_size - L) stX.apparent_blob_size (B₁ ++ B₂)
        (P₁ ++ { p0 with next_blob_id := (p0.next_blob_id + 1) % 2 ^ 32 } :: P₂)
    rw [Nat.add_sub_cancel]
  · refine (cb_split_dec _ K B₁ B₂ ⟨K, L, rc + 1⟩ rfl rfl h₁ h₂
      (show ¬ (rc + 1 - 1 = 0) by omega)).trans ?_
    simp only [if_neg hrc0]
    show DaemonState.mk stX.real_blob_size
        (stX.apparent_blob_size + L - L) (B₁ ++ ⟨K, L, rc⟩ :: B₂)
        (P₁ ++ { p0 with next_blob_id := (p0.next_blob_id + 1) % 2 ^ 32 } :: P₂) =
      DaemonState.mk stX.real_blob_size stX.apparent_blob_size
        (B₁ ++ ⟨K, L, rc⟩ :: B₂)
        (P₁ ++ { p0 with next_blob_id := (p0.next_blob_id + 1) % 2 ^ 32 } :: P₂)
    rw [Nat.add_sub_cancel]

/-! ## Claim C7: peer death sweep -/

/-- C7: when the daemon sees a NameOwnerChanged signal whose name starts
with a colon, whose old owner equals the name and whose new owner is empty,
the peer record is removed from the peer table, every blob reference the
peer held is released with the apparent size counter decreased by the sum of
the referenced blob lens over its entries, any blob whose reference count
thereby reaches zero is destroyed, and afterwards no handle issued to that
peer remains in any table (its whole handle table is gone with it). -/
theorem C7_peer_death (st : DaemonState) (name : String) (p0 : Peer)
    (hinv : Inv st)
    (hname : name.data.head? = some ':')
    (hfind : st.peers.find? (fun p => p.name == name) = some p0) :
    (name_owner_changed st name name "").peers =
      st.peers.filter (fun p => p.name != name) ∧
    (∀ p ∈ (name_owner_changed st name name "").peers, p.name ≠ name) ∧
    (name_owner_changed st name name "").apparent_blob_size =
      st.apparent_blob_size - peerEntriesLen st p0 ∧
    (∀ b ∈ st.blobs, b.ref_count = p0.blobs.countP (fun e => e.2 == b.sha256) →
      ∀ b' ∈ (name_owner_changed st name name "").blobs,
        b'.sha256 ≠ b.sha256) := by
  have hcond : (name.data.head? == some ':' && name == name &&
      ("" : String) == "") = true := by
    simp [hname]
  have hpmem := List.mem_of_find?_eq_some hfind
  have hpname : p0.name = name := by simpa using List.find?_some hfind
  obtain ⟨P₁, P₂, hp, h₁, h₂⟩ :=
    split_of_mem_keys (fun p => p.name) hinv.2.1 hpmem
  rw [hpname] at h₁ h₂
  have hfil : st.peers.filter (fun p => p.name != name) = P₁ ++ P₂ := by
    rw [hp]
    exact filter_keys_split (fun p => p.name) name P₁ P₂ p0 h₁ h₂ hpname
  have hrun : name_owner_changed st name name "" =
      peer_free { st with peers := P₁ ++ P₂ } p0 := by
    rw [name_owner_changed, if_pos hcond, hfind, hfil]
  have hinvF : Inv (name_owner_changed st name name "") :=
    inv_name_owner_changed st name name "" hinv
  have hpeers : (name_owner_changed st name name "").peers = P₁ ++ P₂ := by
    rw [hrun, peer_free, fold_cb_peers]
  obtain ⟨hbkF, hpkF, hhkF, hposF, hrcF, hliveF, _, _, _, happF⟩ := hinvF
  obtain ⟨hbk, hpk, hhk, hpos, hrc, hlive, _, _, _, happ⟩ := hinv
  have hlenB : ∀ b' ∈ (name_owner_changed st name name "").blobs,
      ∃ b ∈ st.blobs, b'.sha256 = b.sha256 ∧ b'.len = b.len := by
    rw [hrun, peer_free]
    exact fold_cb_lenBack p0.blobs _
  refine ⟨by rw [hpeers, hfil], ?_, ?_, ?_⟩
  · intro p hpF
    rw [hpeers] at hpF
    rcases List.mem_append.mp hpF with h | h
    · exact h₁ p h
    · exact h₂ p h
  · have hblEq : ∀ p ∈ (P₁ ++ P₂ : List Peer), ∀ e ∈ p.blobs,
        blob_len (name_owner_changed st name name "") e.2 = blob_len st e.2 := by
      intro p hpF e he
      apply blob_len_of_lenBack st _ hbk hbkF hlenB
      have hpF' : p ∈ (name_owner_changed st name name "").peers := by
        rw [hpeers]
        exact hpF
      obtain ⟨b', hb', hb'sha⟩ := hliveF p hpF' e he
      exact ⟨b', hb', hb'sha⟩
    have hatF : apparentTotal (name_owner_changed st name name "") =
        ((P₁ ++ P₂).map (fun p => peerEntriesLen st p)).sum := by
      unfold apparentTotal
      rw [hpeers]
      apply congrArg List.sum
      apply List.map_congr_left
      intro p hpF
      unfold peerEntriesLen
      apply congrArg List.sum
      apply List.map_congr_left
      intro e he
      exact hblEq p hpF e he
    have hat : apparentTotal st =
        ((P₁ ++ P₂).map (fun p => peerEntriesLen st p)).sum +
          peerEntriesLen st p0 := by
      rw [apparentTotal_peers st st (P₁ ++ p0 :: P₂) hp (fun k => rfl)]
      simp [List.sum_append]
      omega
    simp only [List.map_nil, List.sum_nil, Nat.add_zero] at happ happF
    rw [happF, hatF, happ, hat]
    omega
  · intro b hb hrcb b' hb' heq
    have h1 := hrcF b' hb'
    have h2 := hrc b hb
    simp only [List.count_nil, Nat.add_zero] at h1 h2
    have h3 : refTotal st b.sha256 =
        refTotal (name_owner_changed st name name "") b.sha256 +
          p0.blobs.countP (fun e => e.2 == b.sha256) := by
      unfold refTotal
      rw [hp, hpeers]
      simp only [List.map_append, List.map_cons, List.sum_append, List.sum_cons]
      omega
    have h4 := hposF b' hb'
    rw [heq] at h1
    omega

/-- C7 witness: the peer of one MakeUnique dies; its record disappears and
the apparent size counter drops back by the length it was accounting. -/
theorem C7_peer_death_witness :
    (name_owner_changed (run initState [Op.call ":1.5"
        "org.freedesktop.portal.Unique" "MakeUnique" (.h 0) [⟨[7], 15, true⟩]])
        ":1.5" ":1.5" "").peers =
      (run initState [Op.call ":1.5" "org.freedesktop.portal.Unique"
        "MakeUnique" (.h 0) [⟨[7], 15, true⟩]]).peers.filter
        (fun p => p.name != ":1.5") ∧
    (name_owner_changed (run initState [Op.call ":1.5"
        "org.freedesktop.portal.Unique" "MakeUnique" (.h 0) [⟨[7], 15, true⟩]])
        ":1.5" ":1.5" "").apparent_blob_size =
      (run initState [Op.call ":1.5" "org.freedesktop.portal.Unique"
        "MakeUnique" (.h 0) [⟨[7], 15, true⟩]]).apparent_blob_size -
        peerEntriesLen (run initState [Op.call ":1.5"
          "org.freedesktop.portal.Unique" "MakeUnique" (.h 0)
          [⟨[7], 15, true⟩]]) ⟨":1.5", 2, [(1, "[7]")]⟩ := by
  have h := C7_peer_death (run initState [Op.call ":1.5"
    "org.freedesktop.portal.Unique" "MakeUnique" (.h 0) [⟨[7], 15, true⟩]])
    ":1.5" ⟨":1.5", 2, [(1, "[7]")]⟩
    (inv_run [Op.call ":1.5" "org.freedesktop.portal.Unique" "MakeUnique"
      (.h 0) [⟨[7], 15, true⟩]])
    (by decide) (by decide)
  exact ⟨h.1, h.2.2.1⟩

/-! ## Claim C3: MakeUnique Forget round trip -/

/-- C3 counterexample: the round trip does not leave the peer table as if
the submission had never happened, even with no other peer holding the
content. After one MakeUnique and the Forget of the handle it returned, a
fresh daemon keeps a peer record for the sender (with the handle counter
advanced), while a daemon that never saw the submission has an empty peer
table. -/
theorem C3_counterexample :
    (run initState
      [Op.call ":1.1" "org.freedesktop.portal.Unique" "MakeUnique"
        (.h 0) [⟨[7], 15, true⟩],
       Op.call ":1.1" "org.freedesktop.portal.Unique" "Forget" (.u 1) []]).peers ≠
      (run initState []).peers := by
  decide

/-- C3 (amended): a successful MakeUnique followed by Forget on the handle
it returned restores the blob store and both size counters exactly, whether
or not another peer holds the same content; the peer table is restored
except that the sender record keeps its advanced next_blob_id counter (a
record being created first for a never-seen sender). The hypothesis
noPendingCollision excludes a wrapped handle counter colliding with a
surviving handle. -/
theorem C3_roundtrip (st : DaemonState) (sender : String) (fd : Memfd)
    (hinv : Inv st) (hnc : noPendingCollision st sender)
    (hseal : fd.seals &&& ALL_SEALS = ALL_SEALS) (hread : fd.readable = true) :
    ∃ st₁ fds id,
      make_unique st sender (.h 0) [fd] = (st₁, .okMakeUnique fds id) ∧
      (forget st₁ sender (.u id)).1 =
        { st with peers := (lookup_peer st sender).peers.map (fun p =>
            if p.name == sender then
              { p with next_blob_id := (p.next_blob_id + 1) % 2 ^ 32 }
            else p) } := by
  obtain ⟨hbk, hpk, hhk, hpos, hrcE, hlive, hprE, hpaE, hreal, happ⟩ := hinv
  have hsealeq : ((fd.seals &&& ALL_SEALS) != ALL_SEALS) = false := by
    simp [hseal]
  cases hlb : st.blobs.find? (fun b => b.sha256 == sha256hex fd.content) with
  | some b0 =>
    have hmu : make_unique st sender (.h 0) [fd] =
        (blob_unref (add_blob_to_peer (blob_ref st (sha256hex fd.content))
            sender (sha256hex fd.content)).1 (sha256hex fd.content),
         .okMakeUnique [sha256hex fd.content]
           (add_blob_to_peer (blob_ref st (sha256hex fd.content))
             sender (sha256hex fd.content)).2) := by
      simp only [make_unique, steal_one_fd_from_list, List.getElem?_cons_zero,
        hsealeq, hread, Bool.not_true, Bool.false_eq_true, if_false, if_true,
        lookup_blob, hlb]
    have hb0mem : b0 ∈ st.blobs := List.mem_of_find?_eq_some hlb
    have hb0sha : b0.sha256 = sha256hex fd.content := by
      simpa using List.find?_some hlb
    obtain ⟨B₁, B₂, hB, h₁, h₂⟩ := split_of_mem_keys (fun b => b.sha256) hbk hb0mem
    rw [hb0sha] at h₁ h₂
    have hrefst : blob_ref st (sha256hex fd.content) =
        { st with blobs :=
            B₁ ++ ⟨sha256hex fd.content, b0.len, b0.ref_count + 1⟩ :: B₂ } := by
      have h := blob_ref_split st B₁ B₂ b0 hB
        (fun x hx => by rw [hb0sha]; exact h₁ x hx)
        (fun x hx => by rw [hb0sha]; exact h₂ x hx)
      rw [hb0sha] at h
      exact congrArg (fun l => { st with blobs := l }) h
    have hrc0 : ¬ (b0.ref_count = 0) := by
      have := hpos b0 hb0mem
      omega
    have hback : (⟨sha256hex fd.content, b0.len, b0.ref_count⟩ : Blob) = b0 := by
      rw [← hb0sha]
    rw [hmu]
    refine ⟨_, [sha256hex fd.content],
      (add_blob_to_peer (blob_ref st (sha256hex fd.content)) sender
        (sha256hex fd.content)).2, rfl, ?_⟩
    by_cases hs : ∃ p ∈ st.peers, p.name = sender
    · obtain ⟨p0, hp0mem, hp0n⟩ := hs
      obtain ⟨P₁, P₂, hP, hn₁, hn₂⟩ :=
        split_of_mem_keys (fun p => p.name) hpk hp0mem
      rw [hp0n] at hn₁ hn₂
      have hid : ∀ e ∈ p0.blobs, e.1 ≠ p0.next_blob_id :=
        fun e he => hnc p0 hp0mem hp0n e he
      have hcore := roundtrip_core (blob_ref st (sha256hex fd.content)) sender
        (sha256hex fd.content) b0.len b0.ref_count B₁ B₂ P₁ P₂ p0
        (by rw [hrefst]) h₁ h₂ (by rw [hrefst]; exact hP) hp0n hn₁ hn₂ hid
      rw [hcore, lookup_peer_known st sender p0 hp0mem hp0n, hP,
        map_update_keys_split (fun p => p.name) sender
          (fun p => { p with next_blob_id := (p.next_blob_id + 1) % 2 ^ 32 })
          P₁ P₂ p0 hn₁ hn₂ hp0n]
      simp only [if_neg hrc0]
      rw [hback, ← hB]
      rfl
    · have hnew : ∀ p ∈ st.peers, p.name ≠ sender :=
        fun p hp hpn => hs ⟨p, hp, hpn⟩
      have hlkX : lookup_peer (blob_ref st (sha256hex fd.content)) sender =
          { st with
            blobs := B₁ ++ ⟨sha256hex fd.content, b0.len, b0.ref_count + 1⟩ :: B₂,
            peers := ⟨sender, 1, []⟩ :: st.peers } := by
        rw [hrefst]
        exact lookup_peer_new _ sender hnew
      have hcore := roundtrip_core
        { st with
          blobs := B₁ ++ ⟨sha256hex fd.content, b0.len, b0.ref_count + 1⟩ :: B₂,
          peers := ⟨sender, 1, []⟩ :: st.peers }
        sender (sha256hex fd.content) b0.len b0.ref_count B₁ B₂ [] st.peers
        ⟨sender, 1, []⟩ rfl h₁ h₂ rfl rfl
        (fun x hx => absurd hx (List.not_mem_nil x)) hnew
        (fun e he => absurd he (List.not_mem_nil e))
      have hswap : add_blob_to_peer (blob_ref st (sha256hex fd.content)) sender
          (sha256hex fd.content) =
          add_blob_to_peer
            { st with
              blobs := B₁ ++ ⟨sha256hex fd.content, b0.len, b0.ref_count + 1⟩ :: B₂,
              peers := ⟨sender, 1, []⟩ :: st.peers }
            sender (sha256hex fd.content) := by
        rw [add_blob_to_peer_lookup, hlkX]
      have hmapn : ((⟨sender, 1, []⟩ : Peer) :: st.peers).map (fun p =>
          if p.name == sender then
            { p with next_blob_id := (p.next_blob_id + 1) % 2 ^ 32 }
          else p) = (⟨sender, (1 + 1) % 2 ^ 32, []⟩ : Peer) :: st.peers :=
        map_update_keys_split (fun p => p.name) sender
          (fun p => { p with next_blob_id := (p.next_blob_id + 1) % 2 ^ 32 })
          [] st.peers ⟨sender, 1, []⟩
          (fun x hx => absurd hx (List.not_mem_nil x)) hnew rfl
      have hRHS : { st with peers := (lookup_peer st sender).peers.map (fun p =>
          if p.name == sender then
            { p with next_blob_id := (p.next_blob_id + 1) % 2 ^ 32 }
          else p) } =
          { st with peers := (⟨sender, (1 + 1) % 2 ^ 32, []⟩ : Peer) :: st.peers } := by
        rw [lookup_peer_new st sender hnew]
        exact congrArg (fun l => { st with peers := l }) hmapn
      rw [hswap, hcore, hRHS]
      simp only [if_neg hrc0]
      rw [hback, ← hB]
      rfl
  | none =>
    have h₂all : ∀ x ∈ st.blobs, x.sha256 ≠ sha256hex fd.content := by
      intro x hx
      have := List.find?_eq_none.mp hlb x hx
      simpa using this
    have hmu : make_unique st sender (.h 0) [fd] =
        (blob_unref (add_blob_to_peer
            (blob_new st fd.content.length (sha256hex fd.content))
            sender (sha256hex fd.content)).1 (sha256hex fd.content),
         .okMakeUnique []
           (add_blob_to_peer
             (blob_new st fd.content.length (sha256hex fd.content))
             sender (sha256hex fd.content)).2) := by
      simp only [make_unique, steal_one_fd_from_list, List.getElem?_cons_zero,
        hsealeq, hread, Bool.not_true, Bool.false_eq_true, if_false, if_true,
        lookup_blob, hlb]
    rw [hmu]
    refine ⟨_, [],
      (add_blob_to_peer (blob_new st fd.content.length (sha256hex fd.content))
        sender (sha256hex fd.content)).2, rfl, ?_⟩
    by_cases hs : ∃ p ∈ st.peers, p.name = sender
    · obtain ⟨p0, hp0mem, hp0n⟩ := hs
      obtain ⟨P₁, P₂, hP, hn₁, hn₂⟩ :=
        split_of_mem_keys (fun p => p.name) hpk hp0mem
      rw [hp0n] at hn₁ hn₂
      have hid : ∀ e ∈ p0.blobs, e.1 ≠ p0.next_blob_id :=
        fun e he => hnc p0 hp0mem hp0n e he
      have hcore := roundtrip_core
        (blob_new st fd.content.length (sha256hex fd.content)) sender
        (sha256hex fd.content) fd.content.length 0 [] st.blobs P₁ P₂ p0
        rfl (fun x hx => absurd hx (List.not_mem_nil x)) h₂all hP hp0n hn₁ hn₂ hid
      rw [hcore, lookup_peer_known st sender p0 hp0mem hp0n, hP,
        map_update_keys_split (fun p => p.name) sender
          (fun p => { p with next_blob_id := (p.next_blob_id + 1) % 2 ^ 32 })
          P₁ P₂ p0 hn₁ hn₂ hp0n]
      simp only [if_pos rfl]
      show DaemonState.mk (st.real_blob_size + fd.content.length - fd.content.length)
          st.apparent_blob_size st.blobs
          (P₁ ++ { p0 with next_blob_id := (p0.next_blob_id + 1) % 2 ^ 32 } :: P₂) =
        DaemonState.mk st.real_blob_size st.apparent_blob_size st.blobs
          (P₁ ++ { p0 with next_blob_id := (p0.next_blob_id + 1) % 2 ^ 32 } :: P₂)
      rw [Nat.add_sub_cancel]
    · have hnew : ∀ p ∈ st.peers, p.name ≠ sender :=
        fun p hp hpn => hs ⟨p, hp, hpn⟩
      have hlkX : lookup_peer
          (blob_new st fd.content.length (sha256hex fd.content)) sender =
          { st with
            real_blob_size := st.real_blob_size + fd.content.length,
            blobs := ⟨sha256hex fd.content, fd.content.length, 1⟩ :: st.blobs,
            peers := ⟨sender, 1, []⟩ :: st.peers } :=
        lookup_peer_new _ sender hnew
      have hcore := roundtrip_core
        { st with
          real_blob_size := st.real_blob_size + fd.content.length,
          blobs := ⟨sha256hex fd.content, fd.content.length, 1⟩ :: st.blobs,
          peers := ⟨sender, 1, []⟩ :: st.peers }
        sender (sha256hex fd.content) fd.content.length 0 [] st.blobs [] st.peers
        ⟨sender, 1, []⟩ rfl (fun x hx => absurd hx (List.not_mem_nil x)) h₂all
        rfl rfl (fun x hx => absurd hx (List.not_mem_nil x)) hnew
        (fun e he => absurd he (List.not_mem_nil e))
      have hswap : add_blob_to_peer
          (blob_new st fd.content.length (sha256hex fd.content)) sender
          (sha256hex fd.content) =
          add_blob_to_peer
            { st with
              real_blob_size := st.real_blob_size + fd.content.length,
              blobs := ⟨sha256hex fd.content, fd.content.length, 1⟩ :: st.blobs,
              peers := ⟨sender, 1, []⟩ :: st.peers }
            sender (sha256hex fd.content) := by
        rw [add_blob_to_peer_lookup, hlkX]
      have hmapn : ((⟨sender, 1, []⟩ : Peer) :: st.peers).map (fun p =>
          if p.name == sender then
            { p with next_blob_id := (p.next_blob_id + 1) % 2 ^ 32 }
          else p) = (⟨sender, (1 + 1) % 2 ^ 32, []⟩ : Peer) :: st.peers :=
        map_update_keys_split (fun p => p.name) sender
          (fun p => { p with next_blob_id := (p.next_blob_id + 1) % 2 ^ 32 })
          [] st.peers ⟨sender, 1, []⟩
          (fun x hx => absurd hx (List.not_mem_nil x)) hnew rfl
      have hRHS : { st with peers := (lookup_peer st sender).peers.map (fun p =>
          if p.name == sender then
            { p with next_blob_id := (p.next_blob_id + 1) % 2 ^ 32 }
          else p) } =
          { st with peers := (⟨sender, (1 + 1) % 2 ^ 32, []⟩ : Peer) :: st.peers } := by
        rw [lookup_peer_new st sender hnew]
        exact congrArg (fun l => { st with peers := l }) hmapn
      rw [hswap, hcore, hRHS]
      simp only [if_pos rfl]
      show DaemonState.mk (st.real_blob_size + fd.content.length - fd.content.length)
          st.apparent_blob_size st.blobs
          ((⟨sender, (1 + 1) % 2 ^ 32, []⟩ : Peer) :: st.peers) =
        DaemonState.mk st.real_blob_size st.apparent_blob_size st.blobs
          ((⟨sender, (1 + 1) % 2 ^ 32, []⟩ : Peer) :: st.peers)
      rw [Nat.add_sub_cancel]

/-- C3 witness: the round trip from a fresh daemon for the content [3]. -/
theorem C3_roundtrip_witness :
    ∃ st₁ fds id,
      make_unique initState ":1.9" (.h 0) [⟨[3], 15, true⟩] =
        (st₁, .okMakeUnique fds id) ∧
      (forget st₁ ":1.9" (.u id)).1 =
        { initState with peers := (lookup_peer initState ":1.9").peers.map (fun p =>
            if p.name == ":1.9" then
              { p with next_blob_id := (p.next_blob_id + 1) % 2 ^ 32 }
            else p) } :=
  C3_roundtrip initState ":1.9" ⟨[3], 15, true⟩ (by decide) (by decide)
    (by decide) rfl

/-! ## Claim C8: content deduplication -/

/-- C8: submitting the same byte sequence twice to a fresh daemon, whether
from the same peer or from two different peers, results in exactly one entry
in the blob store (with reference count 2) and two distinct handles: the
(peer, id) pairs of the two successful replies differ. -/
theorem C8_dedup (c : List Byte) (s₁ s₂ : String) (m₁ m₂ : Nat)
    (hm₁ : m₁ &&& ALL_SEALS = ALL_SEALS) (hm₂ : m₂ &&& ALL_SEALS = ALL_SEALS) :
    ∃ st₁ st₂ fds₁ fds₂ id₁ id₂,
      make_unique initState s₁ (.h 0) [⟨c, m₁, true⟩] =
        (st₁, .okMakeUnique fds₁ id₁) ∧
      make_unique st₁ s₂ (.h 0) [⟨c, m₂, true⟩] =
        (st₂, .okMakeUnique fds₂ id₂) ∧
      st₂.blobs = [⟨sha256hex c, c.length, 2⟩] ∧
      (s₁, id₁) ≠ (s₂, id₂) := by
  have hse₁ : ((m₁ &&& ALL_SEALS) != ALL_SEALS) = false := by simp [hm₁]
  have hse₂ : ((m₂ &&& ALL_SEALS) != ALL_SEALS) = false := by simp [hm₂]
  have h1 : make_unique initState s₁ (.h 0) [⟨c, m₁, true⟩] =
      (⟨c.length, c.length, [⟨sha256hex c, c.length, 1⟩],
        [⟨s₁, 2, [(1, sha256hex c)]⟩]⟩,
       .okMakeUnique [] 1) := by
    simp [make_unique, steal_one_fd_from_list, lookup_blob, blob_new,
      add_blob_to_peer, lookup_peer, blob_ref, blob_unref, blob_len,
      initState, hse₁]
  by_cases hss : s₁ = s₂
  · subst hss
    have h2 : make_unique
        (⟨c.length, c.length, [⟨sha256hex c, c.length, 1⟩],
          [⟨s₁, 2, [(1, sha256hex c)]⟩]⟩ : DaemonState)
        s₁ (.h 0) [⟨c, m₂, true⟩] =
        (⟨c.length, c.length + c.length, [⟨sha256hex c, c.length, 2⟩],
          [⟨s₁, 3, [(2, sha256hex c), (1, sha256hex c)]⟩]⟩,
         .okMakeUnique [sha256hex c] 2) := by
      simp [make_unique, steal_one_fd_from_list, lookup_blob,
        add_blob_to_peer, lookup_peer, blob_ref, blob_unref, blob_len, hse₂]
    exact ⟨_, _, [], [sha256hex c], 1, 2, h1, h2, rfl, by simp⟩
  · have hne : (s₁ == s₂) = false := by simp [hss]
    have h2 : make_unique
        (⟨c.length, c.length, [⟨sha256hex c, c.length, 1⟩],
          [⟨s₁, 2, [(1, sha256hex c)]⟩]⟩ : DaemonState)
        s₂ (.h 0) [⟨c, m₂, true⟩] =
        (⟨c.length, c.length + c.length, [⟨sha256hex c, c.length, 2⟩],
          [⟨s₂, 2, [(1, sha256hex c)]⟩, ⟨s₁, 2, [(1, sha256hex c)]⟩]⟩,
         .okMakeUnique [sha256hex c] 1) := by
      simp [make_unique, steal_one_fd_from_list, lookup_blob,
        add_blob_to_peer, lookup_peer, blob_ref, blob_unref, blob_len,
        hse₂, hne]
      exact hss
    refine ⟨_, _, [], [sha256hex c], 1, 1, h1, h2, rfl, ?_⟩
    intro h
    exact hss (congrArg Prod.fst h)

/-- C8 witness: two submissions of the bytes [1, 2] from two peers. -/
theorem C8_dedup_witness :
    ∃ st₁ st₂ fds₁ fds₂ id₁ id₂,
      make_unique initState ":1.1" (.h 0) [⟨[1, 2], 15, true⟩] =
        (st₁, .okMakeUnique fds₁ id₁) ∧
      make_unique st₁ ":1.2" (.h 0) [⟨[1, 2], 15, true⟩] =
        (st₂, .okMakeUnique fds₂ id₂) ∧
      st₂.blobs = [⟨sha256hex [1, 2], ([1, 2] : List Byte).length, 2⟩] ∧
      ((":1.1" : String), id₁) ≠ ((":1.2" : String), id₂) :=
  C8_dedup [1, 2] ":1.1" ":1.2" 15 15 (by decide) (by decide)

/-! ## Claim C2: refcount accounting invariant -/

/-- C2: after any sequence of daemon operations (MakeUnique, Forget, other
method calls, peer deaths) starting from the fresh state, the reference
count of every live blob equals the total number of peer handle entries,
across all peers, that point at it. -/
theorem C2_refcount_invariant (ops : List Op) (b : Blob)
    (hb : b ∈ (run initState ops).blobs) :
    b.ref_count = refTotal (run initState ops) b.sha256 := by
  have h := (inv_run ops).2.2.2.2.1 b hb
  simpa using h

/-- C2 witness: after one MakeUnique of the byte 7, the single blob has
refcount 1 and exactly one handle entry points at it. -/
theorem C2_refcount_invariant_witness :
    (⟨"[7]", 1, 1⟩ : Blob) ∈ (run initState [Op.call ":1.1"
      "org.freedesktop.portal.Unique" "MakeUnique" (.h 0)
      [⟨[7], 15, true⟩]]).blobs ∧
    (⟨"[7]", 1, 1⟩ : Blob).ref_count = refTotal (run initState [Op.call ":1.1"
      "org.freedesktop.portal.Unique" "MakeUnique" (.h 0) [⟨[7], 15, true⟩]])
      (⟨"[7]", 1, 1⟩ : Blob).sha256 :=
  ⟨by decide, C2_refcount_invariant _ _ (by decide)⟩

/-! ## Claim C4: size counter invariants -/

/-- C4: after any sequence of daemon operations starting from the fresh
state, the real size counter equals the sum of blob lens over live blobs,
the apparent size counter equals the sum of the referenced blob lens over
all live per-peer handle entries, and the apparent size is at least the
real size. -/
theorem C4_size_counters (ops : List Op) :
    (run initState ops).real_blob_size = realTotal (run initState ops) ∧
    (run initState ops).apparent_blob_size = apparentTotal (run initState ops) ∧
    realTotal (run initState ops) ≤ apparentTotal (run initState ops) := by
  obtain ⟨hbk, hpk, hhk, hpos, hrc, hlive, hprl, hpac, hreal, happ⟩ := inv_run ops
  refine ⟨hreal, by simpa using happ, ?_⟩
  exact real_le_apparent _ (inv_run ops)

end Uniqued
